import Mathlib

/-! # The tisp scanner (`lib/scanner/scanner.go`)

A shallow embedding of the scanner and theorems about it.

* A Go `string` is a sequence of bytes: `Source` and every lexeme is a
  `List Nat` of byte values.
* `uint8` and `uint16` fields are `Nat`s, every increment or decrement is
  written with its wrap-around (`% 256`, `% 65536`).
* A Go run-time panic (index or slice out of range) is the outcome
  `Exec.panic`.
* Loops and the recursion of `scanToken` are driven by a step budget; a run
  whose budget is used up has the outcome `Exec.fuel`.  A run that has the
  outcome `Exec.fuel` for every budget is a run that never ends.
-/

namespace scanner

/-- Outcome of running a piece of the scanner. -/
inductive Exec (α : Type) where
  /-- the code returned `a` -/
  | done (a : α) : Exec α
  /-- the code stopped with a run-time panic -/
  | panic : Exec α
  /-- the step budget is used up -/
  | fuel : Exec α
  deriving DecidableEq, Repr

/-- Kinds of token, `TokenType` with its constants. -/
inductive TokenType where
  | LEFT_PAREN
  | RIGHT_PAREN
  | PIPE
  | DOUBLE_QUOTES
  | QUESTION_MARK
  | EXCLAMATION_MARK
  | DOUBLE_COLON
  | STRING
  | INTEGER
  | IDENTIFIER
  | IF
  | AND
  | OR
  | EOF
  deriving DecidableEq, Repr

/-- Go `Token`; the field `Type` is `Typ` here. -/
structure Token where
  Typ : TokenType
  Line : Nat
  Column : Nat
  Lexeme : List Nat
  deriving DecidableEq, Repr

/-- Go `ParseError`. -/
structure ParseError where
  Line : Nat
  Cause : String
  deriving DecidableEq, Repr

/-- Go `Scanner`. -/
structure Scanner where
  Source : List Nat
  line : Nat
  column : Nat
  lastIndex : Nat
  currIndex : Nat
  deriving DecidableEq, Repr

/-- The value `Token{}`: every field zero, and the zero `TokenType` is `LEFT_PAREN`. -/
def zeroToken : Token := ⟨TokenType.LEFT_PAREN, 0, 0, []⟩

/-- The value `Token{Type: EOF}`. -/
def eofToken : Token := ⟨TokenType.EOF, 0, 0, []⟩

/-- The scanner `Scanner{Source: src}` that `runPrompt` builds: the other fields are zero. -/
def newScanner (src : List Nat) : Scanner := ⟨src, 0, 0, 0, 0⟩

/-- Go `isInt`. -/
def isInt (c : Nat) : Bool := decide (c ≥ 48 ∧ c ≤ 57)

/-- Go `isAlpha`. -/
def isAlpha (c : Nat) : Bool := decide ((c ≥ 97 ∧ c ≤ 122) ∨ (c ≥ 65 ∧ c ≤ 90))

/-- Go `Scanner.isEnd`: `int(s.currIndex) >= len(s.Source)`. -/
def isEnd (s : Scanner) : Bool := decide (s.currIndex ≥ s.Source.length)

/-- Go `Scanner.advance`: both increments wrap, `s.currIndex-1` is computed in
`uint16`, and the index expression panics out of range. -/
def advance (s : Scanner) : Exec (Scanner × Nat) :=
  let s1 : Scanner :=
    { s with currIndex := (s.currIndex + 1) % 65536, column := (s.column + 1) % 256 }
  match s1.Source[(s1.currIndex + 65535) % 65536]? with
  | some c => Exec.done (s1, c)
  | none => Exec.panic

/-- Go `Scanner.peek`: `s.Source[s.currIndex]`, a panic out of range. -/
def peek (s : Scanner) : Exec Nat :=
  match s.Source[s.currIndex]? with
  | some c => Exec.done c
  | none => Exec.panic

/-- The Go slice expression `src[lo:hi]`: a panic unless `lo <= hi <= len(src)`. -/
def slice (src : List Nat) (lo hi : Nat) : Exec (List Nat) :=
  if lo ≤ hi ∧ hi ≤ src.length then Exec.done ((src.drop lo).take (hi - lo)) else Exec.panic

/-- Go `Scanner.newToken`. -/
def newToken (s : Scanner) (t : TokenType) : Exec Token :=
  match slice s.Source s.lastIndex s.currIndex with
  | Exec.done lx => Exec.done ⟨t, s.line, s.column, lx⟩
  | Exec.panic => Exec.panic
  | Exec.fuel => Exec.fuel

/-- The statement `return s.newToken(t), nil` of a method with the results `(t Token, err error)`. -/
def returnToken (s : Scanner) (t : TokenType) : Exec (Scanner × Token × Option String) :=
  match newToken s t with
  | Exec.done tok => Exec.done (s, tok, none)
  | Exec.panic => Exec.panic
  | Exec.fuel => Exec.fuel

/-- The loop of `scanInt` from its condition on: `next` is the byte last read;
the post statement is `next = s.advance()`. -/
def scanIntLoop : Nat → Scanner → Nat → Exec Scanner
  | 0, _, _ => Exec.fuel
  | n + 1, s, next =>
    if isInt next then
      match advance s with
      | Exec.done (s1, c) => scanIntLoop n s1 c
      | Exec.panic => Exec.panic
      | Exec.fuel => Exec.fuel
    else Exec.done s

/-- Go `Scanner.scanInt`. -/
def scanInt (n : Nat) (s : Scanner) : Exec (Scanner × Token × Option String) :=
  match peek s with
  | Exec.done next =>
    match scanIntLoop n s next with
    | Exec.done s1 => returnToken s1 TokenType.INTEGER
    | Exec.panic => Exec.panic
    | Exec.fuel => Exec.fuel
  | Exec.panic => Exec.panic
  | Exec.fuel => Exec.fuel

/-- The loop of `scanString`: the init and the post statement are both
`next = s.peek()`, so one round is peek, condition, body. -/
def scanStringLoop : Nat → Scanner → Exec Scanner
  | 0, _ => Exec.fuel
  | n + 1, s =>
    match peek s with
    | Exec.done next =>
      if next ≠ 34 ∧ isEnd s = false then
        let s1 : Scanner :=
          if next = 10 then { s with line := (s.line + 1) % 256, column := 0 } else s
        match advance s1 with
        | Exec.done (s2, _) => scanStringLoop n s2
        | Exec.panic => Exec.panic
        | Exec.fuel => Exec.fuel
      else Exec.done s
    | Exec.panic => Exec.panic
    | Exec.fuel => Exec.fuel

/-- Go `Scanner.scanString`; the bounds `s.lastIndex+1` and `s.currIndex-1` are `uint16`. -/
def scanString (n : Nat) (s : Scanner) : Exec (Scanner × Token × Option String) :=
  match scanStringLoop n s with
  | Exec.done s1 =>
    if isEnd s1 then Exec.done (s1, zeroToken, some "unterminated string literal.")
    else
      match advance s1 with
      | Exec.done (s2, _) =>
        match slice s2.Source ((s2.lastIndex + 1) % 65536) ((s2.currIndex + 65535) % 65536) with
        | Exec.done lx => Exec.done (s2, ⟨TokenType.STRING, s2.line, s2.column, lx⟩, none)
        | Exec.panic => Exec.panic
        | Exec.fuel => Exec.fuel
      | Exec.panic => Exec.panic
      | Exec.fuel => Exec.fuel
  | Exec.panic => Exec.panic
  | Exec.fuel => Exec.fuel

/-- The map `keywords` of `scanIdentifier`, as the lookup `keywords[w]`. -/
def keywords (w : List Nat) : Option TokenType :=
  if w = [105, 102] then some TokenType.IF
  else if w = [111, 114] then some TokenType.OR
  else if w = [97, 110, 100] then some TokenType.AND
  else none

/-- The loop of `scanIdentifier`: peek, condition, `s.advance()`. -/
def scanIdentifierLoop : Nat → Scanner → Exec Scanner
  | 0, _ => Exec.fuel
  | n + 1, s =>
    match peek s with
    | Exec.done next =>
      if isAlpha next then
        match advance s with
        | Exec.done (s1, _) => scanIdentifierLoop n s1
        | Exec.panic => Exec.panic
        | Exec.fuel => Exec.fuel
      else Exec.done s
    | Exec.panic => Exec.panic
    | Exec.fuel => Exec.fuel

/-- Go `Scanner.scanIdentifier`. -/
def scanIdentifier (n : Nat) (s : Scanner) : Exec (Scanner × Token × Option String) :=
  match scanIdentifierLoop n s with
  | Exec.done s1 =>
    match slice s1.Source s1.lastIndex s1.currIndex with
    | Exec.done w =>
      match keywords w with
      | some ktype => returnToken s1 ktype
      | none => returnToken s1 TokenType.IDENTIFIER
    | Exec.panic => Exec.panic
    | Exec.fuel => Exec.fuel
  | Exec.panic => Exec.panic
  | Exec.fuel => Exec.fuel

/-- The text `fmt.Errorf("Unexpected character %s", string(c))` carries: `string(c)`
of a byte is the text of the code point `c`. -/
def unexpectedCharacter (c : Nat) : String :=
  "Unexpected character " ++ String.singleton (Char.ofNat c)

/-- Go `Scanner.scanToken`; it calls itself after white space. -/
def scanToken : Nat → Scanner → Exec (Scanner × Token × Option String)
  | 0, _ => Exec.fuel
  | n + 1, s =>
    match advance s with
    | Exec.done (s1, c) =>
      if c = 124 then returnToken s1 TokenType.PIPE
      else if c = 40 then returnToken s1 TokenType.LEFT_PAREN
      else if c = 41 then returnToken s1 TokenType.RIGHT_PAREN
      else if c = 63 then returnToken s1 TokenType.QUESTION_MARK
      else if c = 33 then returnToken s1 TokenType.EXCLAMATION_MARK
      else if c = 58 then returnToken s1 TokenType.DOUBLE_COLON
      else if c = 34 then scanString n s1
      else if c = 32 ∨ c = 9 ∨ c = 13 then scanToken n s1
      else if c = 10 then
        scanToken n { s1 with line := (s1.line + 1) % 256, column := 0 }
      else if isInt c then scanInt n s1
      else if isAlpha c then scanIdentifier n s1
      else Exec.done (s1, zeroToken, some (unexpectedCharacter c))
    | Exec.panic => Exec.panic
    | Exec.fuel => Exec.fuel

/-- What `Scan` has in hand when it returns: the two results `tokens` and the
error value (`none` is `nil`), and the local slice `errors`, which the Go
code builds and drops. -/
structure ScanResult where
  tokens : List Token
  err : Option String
  errors : List ParseError
  deriving DecidableEq, Repr

/-- The `for !s.isEnd()` loop of `Scan`, with the locals `tokens` and `errors`. -/
def scanLoop : Nat → Scanner → List Token → List ParseError →
    Exec (Scanner × List Token × List ParseError)
  | 0, _, _, _ => Exec.fuel
  | n + 1, s, tokens, errors =>
    if isEnd s then Exec.done (s, tokens, errors)
    else
      match scanToken n { s with lastIndex := s.currIndex } with
      | Exec.done (s1, token, err) =>
        match err with
        | some cause => scanLoop n s1 tokens (errors ++ [⟨s1.line, cause⟩])
        | none => scanLoop n s1 (tokens ++ [token]) errors
      | Exec.panic => Exec.panic
      | Exec.fuel => Exec.fuel

/-- Go `Scanner.Scan`. -/
def Scan (n : Nat) (s : Scanner) : Exec ScanResult :=
  match scanLoop n { s with currIndex := 0, line := 1 } [] [] with
  | Exec.done (_, tokens, errors) => Exec.done ⟨tokens ++ [eofToken], none, errors⟩
  | Exec.panic => Exec.panic
  | Exec.fuel => Exec.fuel

/-- Run `Scan` on the scanner `Scanner{Source: src}` with the step budget `n`. -/
def scanSource (n : Nat) (src : List Nat) : Exec ScanResult := Scan n (newScanner src)

/-- The cursor is inside the source, and the source is one a `uint16` cursor can walk
to its end (at most 65535 bytes). -/
def InRange (s : Scanner) : Prop :=
  s.currIndex ≤ s.Source.length ∧ s.Source.length ≤ 65535

/-- The state `s1` is a later state of the scan that was in `s`: same source, same token
start, the cursor not moved back and still inside the source. -/
def Later (s s1 : Scanner) : Prop :=
  s1.Source = s.Source ∧ s1.lastIndex = s.lastIndex ∧
    s.currIndex ≤ s1.currIndex ∧ s1.currIndex ≤ s1.Source.length

/-- The state of the scanner after at most `k` rounds of the main loop of `Scan` (fewer when
`isEnd` holds before), each call of `scanToken` with the budget `n`: the loop of `scanLoop`
without the two lists. -/
def scanRounds (n : Nat) : Nat → Scanner → Exec Scanner
  | 0, s => Exec.done s
  | k + 1, s =>
    if isEnd s then Exec.done s
    else
      match scanToken n { s with lastIndex := s.currIndex } with
      | Exec.done (s1, _, _) => scanRounds n k s1
      | Exec.panic => Exec.panic
      | Exec.fuel => Exec.fuel

/-- The states a scan of `src` is in after each of its steps: the state in which `Scan`
enters its loop, and from a state of the scan the state after each assignment the code
makes to the scanner, which are `s.lastIndex = s.currIndex` at the top of a round of the
main loop, a call of `advance` that returns, and `s.line++; s.column = 0`. -/
inductive Reach (src : List Nat) : Scanner → Prop where
  | start : Reach src ⟨src, 1, 0, 0, 0⟩
  | mark {s : Scanner} : Reach src s → isEnd s = false →
      Reach src { s with lastIndex := s.currIndex }
  | step {s s1 : Scanner} {c : Nat} : Reach src s → advance s = Exec.done (s1, c) →
      Reach src s1
  | newline {s : Scanner} : Reach src s →
      Reach src { s with line := (s.line + 1) % 256, column := 0 }

end scanner


namespace scanner

/-! ## The step budget

A run that ends (by returning or by a panic) within some budget ends the same
way within every larger budget. -/

theorem scanIntLoop_mono {n m : Nat} (h : n ≤ m) (s : Scanner) (next : Nat)
    (hf : scanIntLoop n s next ≠ Exec.fuel) : scanIntLoop m s next = scanIntLoop n s next := by
  induction n generalizing m s next with
  | zero => exact absurd rfl hf
  | succ n ih =>
    obtain ⟨m, rfl⟩ : ∃ k, m = k + 1 := ⟨m - 1, by omega⟩
    simp only [scanIntLoop] at hf ⊢
    split
    · cases hadv : advance s with
      | done p =>
        obtain ⟨s1, c⟩ := p
        simp only [hadv, if_true] at hf ⊢
        rename_i hi
        simp only [hi, if_true] at hf
        exact ih (by omega) s1 c hf
      | panic => rfl
      | fuel => rfl
    · rfl

theorem scanStringLoop_mono {n m : Nat} (h : n ≤ m) (s : Scanner)
    (hf : scanStringLoop n s ≠ Exec.fuel) : scanStringLoop m s = scanStringLoop n s := by
  induction n generalizing m s with
  | zero => exact absurd rfl hf
  | succ n ih =>
    obtain ⟨m, rfl⟩ : ∃ k, m = k + 1 := ⟨m - 1, by omega⟩
    simp only [scanStringLoop] at hf ⊢
    cases hp : peek s with
    | done next =>
      simp only [hp] at hf ⊢
      by_cases hc : next ≠ 34 ∧ isEnd s = false
      · simp only [hc, and_self, if_true, ne_eq, not_false_eq_true] at hf ⊢
        cases hadv : advance (if next = 10 then
            { s with line := (s.line + 1) % 256, column := 0 } else s) with
        | done p =>
          simp only [hadv] at hf ⊢
          exact ih (by omega) p.1 hf
        | panic => rfl
        | fuel => rfl
      · simp only [hc, if_false]
    | panic => rfl
    | fuel => rfl

theorem scanIdentifierLoop_mono {n m : Nat} (h : n ≤ m) (s : Scanner)
    (hf : scanIdentifierLoop n s ≠ Exec.fuel) :
    scanIdentifierLoop m s = scanIdentifierLoop n s := by
  induction n generalizing m s with
  | zero => exact absurd rfl hf
  | succ n ih =>
    obtain ⟨m, rfl⟩ : ∃ k, m = k + 1 := ⟨m - 1, by omega⟩
    simp only [scanIdentifierLoop] at hf ⊢
    cases hp : peek s with
    | done next =>
      simp only [hp] at hf ⊢
      by_cases hc : isAlpha next = true
      · simp only [hc, if_true] at hf ⊢
        cases hadv : advance s with
        | done p =>
          simp only [hadv] at hf ⊢
          exact ih (by omega) p.1 hf
        | panic => rfl
        | fuel => rfl
      · simp [hc]
    | panic => rfl
    | fuel => rfl

theorem returnToken_ne_fuel (s : Scanner) (t : TokenType) : returnToken s t ≠ Exec.fuel := by
  unfold returnToken newToken slice
  split_ifs <;> simp

theorem scanInt_mono {n m : Nat} (h : n ≤ m) (s : Scanner)
    (hf : scanInt n s ≠ Exec.fuel) : scanInt m s = scanInt n s := by
  unfold scanInt at hf ⊢
  cases hp : peek s with
  | done next =>
    simp only [hp] at hf ⊢
    have hl : scanIntLoop n s next ≠ Exec.fuel := by
      intro hl
      simp [hl] at hf
    rw [scanIntLoop_mono h s next hl]
  | panic => rfl
  | fuel => rfl

theorem scanString_mono {n m : Nat} (h : n ≤ m) (s : Scanner)
    (hf : scanString n s ≠ Exec.fuel) : scanString m s = scanString n s := by
  unfold scanString at hf ⊢
  have hl : scanStringLoop n s ≠ Exec.fuel := by
    intro hl
    simp [hl] at hf
  rw [scanStringLoop_mono h s hl]

theorem scanIdentifier_mono {n m : Nat} (h : n ≤ m) (s : Scanner)
    (hf : scanIdentifier n s ≠ Exec.fuel) : scanIdentifier m s = scanIdentifier n s := by
  unfold scanIdentifier at hf ⊢
  have hl : scanIdentifierLoop n s ≠ Exec.fuel := by
    intro hl
    simp [hl] at hf
  rw [scanIdentifierLoop_mono h s hl]

theorem scanToken_mono {n m : Nat} (h : n ≤ m) (s : Scanner)
    (hf : scanToken n s ≠ Exec.fuel) : scanToken m s = scanToken n s := by
  induction n generalizing m s with
  | zero => exact absurd rfl hf
  | succ n ih =>
    obtain ⟨m, rfl⟩ : ∃ k, m = k + 1 := ⟨m - 1, by omega⟩
    have hnm : n ≤ m := by omega
    simp only [scanToken] at hf ⊢
    cases hadv : advance s with
    | done p =>
      obtain ⟨s1, c⟩ := p
      simp only [hadv] at hf ⊢
      by_cases h1 : c = 124
      · simp only [if_pos h1]
      simp only [if_neg h1] at hf ⊢
      by_cases h2 : c = 40
      · simp only [if_pos h2]
      simp only [if_neg h2] at hf ⊢
      by_cases h3 : c = 41
      · simp only [if_pos h3]
      simp only [if_neg h3] at hf ⊢
      by_cases h4 : c = 63
      · simp only [if_pos h4]
      simp only [if_neg h4] at hf ⊢
      by_cases h5 : c = 33
      · simp only [if_pos h5]
      simp only [if_neg h5] at hf ⊢
      by_cases h6 : c = 58
      · simp only [if_pos h6]
      simp only [if_neg h6] at hf ⊢
      by_cases h7 : c = 34
      · simp only [if_pos h7] at hf ⊢
        exact scanString_mono hnm s1 hf
      simp only [if_neg h7] at hf ⊢
      by_cases h8 : c = 32 ∨ c = 9 ∨ c = 13
      · simp only [if_pos h8] at hf ⊢
        exact ih hnm s1 hf
      simp only [if_neg h8] at hf ⊢
      by_cases h9 : c = 10
      · simp only [if_pos h9] at hf ⊢
        exact ih hnm _ hf
      simp only [if_neg h9] at hf ⊢
      by_cases h10 : isInt c = true
      · simp only [if_pos h10] at hf ⊢
        exact scanInt_mono hnm s1 hf
      simp only [if_neg h10] at hf ⊢
      by_cases h11 : isAlpha c = true
      · simp only [if_pos h11] at hf ⊢
        exact scanIdentifier_mono hnm s1 hf
      simp only [if_neg h11]
    | panic => rfl
    | fuel => rfl

theorem scanLoop_mono {n m : Nat} (h : n ≤ m) (s : Scanner) (tokens : List Token)
    (errors : List ParseError) (hf : scanLoop n s tokens errors ≠ Exec.fuel) :
    scanLoop m s tokens errors = scanLoop n s tokens errors := by
  induction n generalizing m s tokens errors with
  | zero => exact absurd rfl hf
  | succ n ih =>
    obtain ⟨m, rfl⟩ : ∃ k, m = k + 1 := ⟨m - 1, by omega⟩
    have hnm : n ≤ m := by omega
    simp only [scanLoop] at hf ⊢
    by_cases he : isEnd s = true
    · simp only [he, if_true]
    · simp only [he, if_false] at hf ⊢
      have ht : scanToken n { s with lastIndex := s.currIndex } ≠ Exec.fuel := by
        intro ht
        simp [ht] at hf
      rw [scanToken_mono hnm _ ht]
      cases hr : scanToken n { s with lastIndex := s.currIndex } with
      | done p =>
        obtain ⟨s1, token, err⟩ := p
        simp only [hr] at hf ⊢
        cases err with
        | some cause => exact ih hnm s1 tokens _ hf
        | none => exact ih hnm s1 _ errors hf
      | panic => rfl
      | fuel => rfl

theorem Scan_mono {n m : Nat} (h : n ≤ m) (s : Scanner)
    (hf : Scan n s ≠ Exec.fuel) : Scan m s = Scan n s := by
  unfold Scan at hf ⊢
  have hl : scanLoop n { s with currIndex := 0, line := 1 } [] [] ≠ Exec.fuel := by
    intro hl
    simp [hl] at hf
  rw [scanLoop_mono h _ [] [] hl]

theorem scanSource_mono {n m : Nat} (h : n ≤ m) (src : List Nat)
    (hf : scanSource n src ≠ Exec.fuel) : scanSource m src = scanSource n src :=
  Scan_mono h (newScanner src) hf

/-! ## The cursor on a source of at most 65535 bytes -/

theorem advance_ne_fuel (s : Scanner) : advance s ≠ Exec.fuel := by
  unfold advance
  simp only
  split <;> simp

theorem peek_ne_fuel (s : Scanner) : peek s ≠ Exec.fuel := by
  unfold peek
  split <;> simp

theorem advance_done {s s1 : Scanner} {c : Nat} (hr : InRange s)
    (h : advance s = Exec.done (s1, c)) :
    s1 = { s with currIndex := s.currIndex + 1, column := (s.column + 1) % 256 } ∧
      s.Source[s.currIndex]? = some c ∧ s.currIndex < s.Source.length := by
  obtain ⟨h1, h2⟩ := hr
  have e : ((s.currIndex + 1) % 65536 + 65535) % 65536 = s.currIndex := by omega
  unfold advance at h
  simp only [e] at h
  split at h
  · rename_i c1 hc
    have hlt : s.currIndex < s.Source.length := by
      rcases List.getElem?_eq_some_iff.mp hc with ⟨hlt, _⟩
      exact hlt
    have e1 : (s.currIndex + 1) % 65536 = s.currIndex + 1 := by omega
    simp only [e1, Exec.done.injEq, Prod.mk.injEq] at h
    exact ⟨h.1.symm, h.2 ▸ hc, hlt⟩
  · exact absurd h (by simp)

theorem advance_later {s s1 : Scanner} {c : Nat} (hr : InRange s)
    (h : advance s = Exec.done (s1, c)) :
    InRange s1 ∧ Later s s1 ∧ s1.currIndex = s.currIndex + 1 := by
  obtain ⟨e, _, hlt⟩ := advance_done hr h
  subst e
  obtain ⟨h1, h2⟩ := hr
  refine ⟨⟨?_, h2⟩, ⟨rfl, rfl, ?_, ?_⟩, rfl⟩
  · show s.currIndex + 1 ≤ s.Source.length
    omega
  · show s.currIndex ≤ s.currIndex + 1
    omega
  · show s.currIndex + 1 ≤ s.Source.length
    omega

theorem Later.refl (s : Scanner) (h : s.currIndex ≤ s.Source.length) : Later s s :=
  ⟨rfl, rfl, Nat.le_refl _, h⟩

theorem Later.trans {s s1 s2 : Scanner} (h : Later s s1) (h1 : Later s1 s2) : Later s s2 := by
  obtain ⟨a, b, c, d⟩ := h
  obtain ⟨a1, b1, c1, d1⟩ := h1
  exact ⟨a1.trans a, b1.trans b, Nat.le_trans c c1, d1⟩

theorem InRange.later {s s1 : Scanner} (hr : InRange s) (h : Later s s1) : InRange s1 := by
  obtain ⟨a, _, _, d⟩ := h
  exact ⟨d, a ▸ hr.2⟩

theorem returnToken_done {s s1 : Scanner} {t : TokenType} {tok : Token} {e : Option String}
    (h : returnToken s t = Exec.done (s1, tok, e)) :
    s1 = s ∧ e = none ∧ newToken s t = Exec.done tok := by
  unfold returnToken at h
  split at h
  · rename_i tok1 hn
    simp only [Exec.done.injEq, Prod.mk.injEq] at h
    obtain ⟨a, b, c⟩ := h
    subst a b c
    exact ⟨rfl, rfl, hn⟩
  · exact absurd h (by simp)
  · exact absurd h (by simp)

theorem scanIntLoop_later {n : Nat} {s s1 : Scanner} {next : Nat} (hr : InRange s)
    (h : scanIntLoop n s next = Exec.done s1) : Later s s1 := by
  induction n generalizing s next with
  | zero => exact absurd h (by simp [scanIntLoop])
  | succ n ih =>
    simp only [scanIntLoop] at h
    split at h
    · cases hadv : advance s with
      | done p =>
        obtain ⟨s2, c⟩ := p
        simp only [hadv] at h
        obtain ⟨hr2, hl, _⟩ := advance_later hr hadv
        exact hl.trans (ih hr2 h)
      | panic => simp [hadv] at h
      | fuel => simp [hadv] at h
    · simp only [Exec.done.injEq] at h
      subst h
      exact Later.refl s hr.1

theorem scanIdentifierLoop_later {n : Nat} {s s1 : Scanner} (hr : InRange s)
    (h : scanIdentifierLoop n s = Exec.done s1) : Later s s1 := by
  induction n generalizing s with
  | zero => exact absurd h (by simp [scanIdentifierLoop])
  | succ n ih =>
    simp only [scanIdentifierLoop] at h
    cases hp : peek s with
    | done next =>
      simp only [hp] at h
      split at h
      · cases hadv : advance s with
        | done p =>
          obtain ⟨s2, c⟩ := p
          simp only [hadv] at h
          obtain ⟨hr2, hl, _⟩ := advance_later hr hadv
          exact hl.trans (ih hr2 h)
        | panic => simp [hadv] at h
        | fuel => simp [hadv] at h
      · simp only [Exec.done.injEq] at h
        subst h
        exact Later.refl s hr.1
    | panic => simp [hp] at h
    | fuel => simp [hp] at h

theorem scanStringLoop_later {n : Nat} {s s1 : Scanner} (hr : InRange s)
    (h : scanStringLoop n s = Exec.done s1) : Later s s1 := by
  induction n generalizing s with
  | zero => exact absurd h (by simp [scanStringLoop])
  | succ n ih =>
    simp only [scanStringLoop] at h
    cases hp : peek s with
    | done next =>
      simp only [hp] at h
      split at h
      · generalize hq : (if next = 10 then
            ({ s with line := (s.line + 1) % 256, column := 0 } : Scanner) else s) = q at h
        have q1 : q.Source = s.Source := by subst hq; split <;> rfl
        have q2 : q.lastIndex = s.lastIndex := by subst hq; split <;> rfl
        have q3 : q.currIndex = s.currIndex := by subst hq; split <;> rfl
        have hq0 : Later s q := ⟨q1, q2, by omega, by rw [q1, q3]; exact hr.1⟩
        cases hadv : advance q with
        | done p =>
          obtain ⟨s2, c⟩ := p
          simp only [hadv] at h
          obtain ⟨hr2, hl, _⟩ := advance_later (hr.later hq0) hadv
          exact hq0.trans (hl.trans (ih hr2 h))
        | panic => simp [hadv] at h
        | fuel => simp [hadv] at h
      · simp only [Exec.done.injEq] at h
        subst h
        exact Later.refl s hr.1
    | panic => simp [hp] at h
    | fuel => simp [hp] at h

theorem scanInt_later {n : Nat} {s s1 : Scanner} {tok : Token} {e : Option String}
    (hr : InRange s) (h : scanInt n s = Exec.done (s1, tok, e)) : Later s s1 := by
  unfold scanInt at h
  cases hp : peek s with
  | done next =>
    simp only [hp] at h
    cases hl : scanIntLoop n s next with
    | done s2 =>
      simp only [hl] at h
      obtain ⟨e1, _, _⟩ := returnToken_done h
      subst e1
      exact scanIntLoop_later hr hl
    | panic => simp [hl] at h
    | fuel => simp [hl] at h
  | panic => simp [hp] at h
  | fuel => simp [hp] at h

theorem scanIdentifier_later {n : Nat} {s s1 : Scanner} {tok : Token} {e : Option String}
    (hr : InRange s) (h : scanIdentifier n s = Exec.done (s1, tok, e)) : Later s s1 := by
  unfold scanIdentifier at h
  cases hl : scanIdentifierLoop n s with
  | done s2 =>
    simp only [hl] at h
    have h2 := scanIdentifierLoop_later hr hl
    split at h
    · split at h
      · obtain ⟨e1, _, _⟩ := returnToken_done h
        subst e1
        exact h2
      · obtain ⟨e1, _, _⟩ := returnToken_done h
        subst e1
        exact h2
    · exact absurd h (by simp)
    · exact absurd h (by simp)
  | panic => simp [hl] at h
  | fuel => simp [hl] at h

theorem scanString_later {n : Nat} {s s1 : Scanner} {tok : Token} {e : Option String}
    (hr : InRange s) (h : scanString n s = Exec.done (s1, tok, e)) : Later s s1 := by
  unfold scanString at h
  cases hl : scanStringLoop n s with
  | done s2 =>
    simp only [hl] at h
    have h2 := scanStringLoop_later hr hl
    split at h
    · simp only [Exec.done.injEq, Prod.mk.injEq] at h
      obtain ⟨e1, _, _⟩ := h
      subst e1
      exact h2
    · cases hadv : advance s2 with
      | done p =>
        obtain ⟨s3, c⟩ := p
        simp only [hadv] at h
        obtain ⟨_, hl3, _⟩ := advance_later (hr.later h2) hadv
        split at h
        · simp only [Exec.done.injEq, Prod.mk.injEq] at h
          obtain ⟨e1, _, _⟩ := h
          subst e1
          exact h2.trans hl3
        · exact absurd h (by simp)
        · exact absurd h (by simp)
      | panic => simp [hadv] at h
      | fuel => simp [hadv] at h
  | panic => simp [hl] at h
  | fuel => simp [hl] at h

theorem scanToken_later {n : Nat} {s s1 : Scanner} {tok : Token} {e : Option String}
    (hr : InRange s) (h : scanToken n s = Exec.done (s1, tok, e)) :
    Later s s1 ∧ s.currIndex < s1.currIndex := by
  induction n generalizing s with
  | zero => exact absurd h (by simp [scanToken])
  | succ n ih =>
    simp only [scanToken] at h
    cases hadv : advance s with
    | done p =>
      obtain ⟨s2, c⟩ := p
      simp only [hadv] at h
      obtain ⟨hr2, hl, hc⟩ := advance_later hr hadv
      have key : ∀ q : Scanner, Later s2 q → Later s q ∧ s.currIndex < q.currIndex := by
        intro q hq
        refine ⟨hl.trans hq, ?_⟩
        have := hq.2.2.1
        omega
      have ret : ∀ t : TokenType, returnToken s2 t = Exec.done (s1, tok, e) →
          Later s s1 ∧ s.currIndex < s1.currIndex := by
        intro t ht
        obtain ⟨e1, _, _⟩ := returnToken_done ht
        subst e1
        exact key _ (Later.refl _ hr2.1)
      by_cases h1 : c = 124
      · simp only [if_pos h1] at h
        exact ret _ h
      simp only [if_neg h1] at h
      by_cases h2 : c = 40
      · simp only [if_pos h2] at h
        exact ret _ h
      simp only [if_neg h2] at h
      by_cases h3 : c = 41
      · simp only [if_pos h3] at h
        exact ret _ h
      simp only [if_neg h3] at h
      by_cases h4 : c = 63
      · simp only [if_pos h4] at h
        exact ret _ h
      simp only [if_neg h4] at h
      by_cases h5 : c = 33
      · simp only [if_pos h5] at h
        exact ret _ h
      simp only [if_neg h5] at h
      by_cases h6 : c = 58
      · simp only [if_pos h6] at h
        exact ret _ h
      simp only [if_neg h6] at h
      by_cases h7 : c = 34
      · simp only [if_pos h7] at h
        exact key _ (scanString_later hr2 h)
      simp only [if_neg h7] at h
      by_cases h8 : c = 32 ∨ c = 9 ∨ c = 13
      · simp only [if_pos h8] at h
        exact key _ (ih hr2 h).1
      simp only [if_neg h8] at h
      by_cases h9 : c = 10
      · simp only [if_pos h9] at h
        have hq0 : Later s2 { s2 with line := (s2.line + 1) % 256, column := 0 } :=
          ⟨rfl, rfl, Nat.le_refl _, hr2.1⟩
        exact key _ (hq0.trans (ih (hr2.later hq0) h).1)
      simp only [if_neg h9] at h
      by_cases h10 : isInt c = true
      · simp only [if_pos h10] at h
        exact key _ (scanInt_later hr2 h)
      simp only [if_neg h10] at h
      by_cases h11 : isAlpha c = true
      · simp only [if_pos h11] at h
        exact key _ (scanIdentifier_later hr2 h)
      simp only [if_neg h11, Exec.done.injEq, Prod.mk.injEq] at h
      obtain ⟨e1, _, _⟩ := h
      subst e1
      exact key _ (Later.refl _ hr2.1)
    | panic => simp [hadv] at h
    | fuel => simp [hadv] at h

/-! ## Enough budget: the run ends -/

theorem scanIntLoop_ne_fuel {n : Nat} {s : Scanner} (next : Nat) (hr : InRange s)
    (hn : s.Source.length - s.currIndex < n) : scanIntLoop n s next ≠ Exec.fuel := by
  induction n generalizing s next with
  | zero => omega
  | succ n ih =>
    simp only [scanIntLoop]
    split
    · cases hadv : advance s with
      | done p =>
        obtain ⟨s2, c⟩ := p
        obtain ⟨hr2, hl, hc⟩ := advance_later hr hadv
        have := congrArg List.length hl.1
        have := hr2.1
        exact ih c hr2 (by omega)
      | panic => simp
      | fuel => exact absurd hadv (advance_ne_fuel s)
    · simp

theorem scanIdentifierLoop_ne_fuel {n : Nat} {s : Scanner} (hr : InRange s)
    (hn : s.Source.length - s.currIndex < n) : scanIdentifierLoop n s ≠ Exec.fuel := by
  induction n generalizing s with
  | zero => omega
  | succ n ih =>
    simp only [scanIdentifierLoop]
    cases hp : peek s with
    | done next =>
      simp only
      split
      · cases hadv : advance s with
        | done p =>
          obtain ⟨s2, c⟩ := p
          obtain ⟨hr2, hl, hc⟩ := advance_later hr hadv
          have := congrArg List.length hl.1
          have := hr2.1
          exact ih hr2 (by omega)
        | panic => simp
        | fuel => exact absurd hadv (advance_ne_fuel s)
      · simp
    | panic => simp
    | fuel => exact absurd hp (peek_ne_fuel s)

theorem scanStringLoop_ne_fuel {n : Nat} {s : Scanner} (hr : InRange s)
    (hn : s.Source.length - s.currIndex < n) : scanStringLoop n s ≠ Exec.fuel := by
  induction n generalizing s with
  | zero => omega
  | succ n ih =>
    simp only [scanStringLoop]
    cases hp : peek s with
    | done next =>
      simp only
      split
      · generalize hq : (if next = 10 then
            ({ s with line := (s.line + 1) % 256, column := 0 } : Scanner) else s) = q
        have q1 : q.Source = s.Source := by subst hq; split <;> rfl
        have q2 : q.lastIndex = s.lastIndex := by subst hq; split <;> rfl
        have q3 : q.currIndex = s.currIndex := by subst hq; split <;> rfl
        have hq0 : Later s q := ⟨q1, q2, by omega, by rw [q1, q3]; exact hr.1⟩
        cases hadv : advance q with
        | done p =>
          obtain ⟨s2, c⟩ := p
          obtain ⟨hr2, hl, hc⟩ := advance_later (hr.later hq0) hadv
          have := congrArg List.length hl.1
          have := congrArg List.length q1
          have := hr2.1
          exact ih hr2 (by omega)
        | panic => simp
        | fuel => exact absurd hadv (advance_ne_fuel q)
      · simp
    | panic => simp
    | fuel => exact absurd hp (peek_ne_fuel s)

theorem scanInt_ne_fuel {n : Nat} {s : Scanner} (hr : InRange s)
    (hn : s.Source.length - s.currIndex < n) : scanInt n s ≠ Exec.fuel := by
  unfold scanInt
  cases hp : peek s with
  | done next =>
    simp only
    cases hl : scanIntLoop n s next with
    | done s1 => exact returnToken_ne_fuel s1 _
    | panic => simp
    | fuel => exact absurd hl (scanIntLoop_ne_fuel next hr hn)
  | panic => simp
  | fuel => exact absurd hp (peek_ne_fuel s)

theorem scanIdentifier_ne_fuel {n : Nat} {s : Scanner} (hr : InRange s)
    (hn : s.Source.length - s.currIndex < n) : scanIdentifier n s ≠ Exec.fuel := by
  unfold scanIdentifier
  cases hl : scanIdentifierLoop n s with
  | done s1 =>
    simp only
    split
    · split
      · exact returnToken_ne_fuel s1 _
      · exact returnToken_ne_fuel s1 _
    · simp
    · rename_i hs
      unfold slice at hs
      split at hs <;> simp at hs
  | panic => simp
  | fuel => exact absurd hl (scanIdentifierLoop_ne_fuel hr hn)

theorem scanString_ne_fuel {n : Nat} {s : Scanner} (hr : InRange s)
    (hn : s.Source.length - s.currIndex < n) : scanString n s ≠ Exec.fuel := by
  unfold scanString
  cases hl : scanStringLoop n s with
  | done s1 =>
    simp only
    split
    · simp
    · cases hadv : advance s1 with
      | done p =>
        simp only
        unfold slice
        split_ifs <;> simp
      | panic => simp
      | fuel => exact absurd hadv (advance_ne_fuel s1)
  | panic => simp
  | fuel => exact absurd hl (scanStringLoop_ne_fuel hr hn)

theorem scanToken_ne_fuel {n : Nat} {s : Scanner} (hr : InRange s)
    (hn : s.Source.length - s.currIndex < n) : scanToken n s ≠ Exec.fuel := by
  induction n generalizing s with
  | zero => omega
  | succ n ih =>
    simp only [scanToken]
    cases hadv : advance s with
    | done p =>
      obtain ⟨s2, c⟩ := p
      simp only
      obtain ⟨hr2, hl, hc⟩ := advance_later hr hadv
      have hlen := congrArg List.length hl.1
      have hle := hr2.1
      have hn2 : s2.Source.length - s2.currIndex < n := by omega
      by_cases h1 : c = 124
      · simp only [if_pos h1]
        exact returnToken_ne_fuel s2 _
      simp only [if_neg h1]
      by_cases h2 : c = 40
      · simp only [if_pos h2]
        exact returnToken_ne_fuel s2 _
      simp only [if_neg h2]
      by_cases h3 : c = 41
      · simp only [if_pos h3]
        exact returnToken_ne_fuel s2 _
      simp only [if_neg h3]
      by_cases h4 : c = 63
      · simp only [if_pos h4]
        exact returnToken_ne_fuel s2 _
      simp only [if_neg h4]
      by_cases h5 : c = 33
      · simp only [if_pos h5]
        exact returnToken_ne_fuel s2 _
      simp only [if_neg h5]
      by_cases h6 : c = 58
      · simp only [if_pos h6]
        exact returnToken_ne_fuel s2 _
      simp only [if_neg h6]
      by_cases h7 : c = 34
      · simp only [if_pos h7]
        exact scanString_ne_fuel hr2 hn2
      simp only [if_neg h7]
      by_cases h8 : c = 32 ∨ c = 9 ∨ c = 13
      · simp only [if_pos h8]
        exact ih hr2 hn2
      simp only [if_neg h8]
      by_cases h9 : c = 10
      · simp only [if_pos h9]
        exact ih (s := { s2 with line := (s2.line + 1) % 256, column := 0 }) hr2 hn2
      simp only [if_neg h9]
      by_cases h10 : isInt c = true
      · simp only [if_pos h10]
        exact scanInt_ne_fuel hr2 hn2
      simp only [if_neg h10]
      by_cases h11 : isAlpha c = true
      · simp only [if_pos h11]
        exact scanIdentifier_ne_fuel hr2 hn2
      simp only [if_neg h11]
      simp
    | panic => simp
    | fuel => exact absurd hadv (advance_ne_fuel s)

theorem scanLoop_ne_fuel {n : Nat} {s : Scanner} (tokens : List Token)
    (errors : List ParseError) (hr : InRange s)
    (hn : s.Source.length - s.currIndex + 1 < n) : scanLoop n s tokens errors ≠ Exec.fuel := by
  induction n generalizing s tokens errors with
  | zero => omega
  | succ n ih =>
    simp only [scanLoop]
    split
    · simp
    · have hr0 : InRange { s with lastIndex := s.currIndex } := hr
      cases ht : scanToken n { s with lastIndex := s.currIndex } with
      | done p =>
        obtain ⟨s1, token, err⟩ := p
        obtain ⟨hl, hlt⟩ := scanToken_later hr0 ht
        have hlen := congrArg List.length hl.1
        have hlt1 : s.currIndex < s1.currIndex := hlt
        have hlen1 : s1.Source.length = s.Source.length := hlen
        have hn1 : s1.Source.length - s1.currIndex + 1 < n := by
          have := hl.2.2.2
          omega
        cases err with
        | some cause => exact ih tokens _ (hr0.later hl) hn1
        | none => exact ih _ errors (hr0.later hl) hn1
      | panic => simp
      | fuel => exact absurd ht (scanToken_ne_fuel hr0 (by show s.Source.length - s.currIndex < n; omega))

theorem Scan_ne_fuel (s : Scanner) (hlen : s.Source.length ≤ 65535) :
    Scan (s.Source.length + 2) s ≠ Exec.fuel := by
  unfold Scan
  have hr : InRange { s with currIndex := 0, line := 1 } := ⟨Nat.zero_le _, hlen⟩
  cases hl : scanLoop (s.Source.length + 2) { s with currIndex := 0, line := 1 } [] [] with
  | done p => simp
  | panic => simp
  | fuel =>
    exact absurd hl (scanLoop_ne_fuel [] [] hr (by show s.Source.length - 0 + 1 < _; omega))

/-! ## One step of the cursor, and the dispatch of `scanToken` -/

theorem peek_eq {s : Scanner} (h : s.currIndex < s.Source.length) :
    peek s = Exec.done s.Source[s.currIndex] := by
  unfold peek
  rw [List.getElem?_eq_getElem h]

theorem peek_panic {s : Scanner} (h : s.Source.length ≤ s.currIndex) : peek s = Exec.panic := by
  unfold peek
  rw [List.getElem?_eq_none h]

theorem advance_eq {s : Scanner} (hr : InRange s) (h : s.currIndex < s.Source.length) :
    advance s = Exec.done
      ({ s with currIndex := s.currIndex + 1, column := (s.column + 1) % 256 },
        s.Source[s.currIndex]) := by
  have e : ((s.currIndex + 1) % 65536 + 65535) % 65536 = s.currIndex := by
    have := hr.2
    omega
  have e1 : (s.currIndex + 1) % 65536 = s.currIndex + 1 := by
    have := hr.2
    omega
  have e2 : (s.currIndex + 1 + 65535) % 65536 = s.currIndex := by omega
  unfold advance
  simp only [e1, e2, List.getElem?_eq_getElem h]

theorem advance_panic {s : Scanner} (hr : InRange s) (h : s.Source.length ≤ s.currIndex) :
    advance s = Exec.panic := by
  have e : ((s.currIndex + 1) % 65536 + 65535) % 65536 = s.currIndex := by
    have := hr.2
    have := hr.1
    omega
  unfold advance
  simp only [e, List.getElem?_eq_none h]

/-- The second half of the `switch` of `scanToken`, reached when the byte is none of the
six punctuation bytes. -/
theorem scanToken_other {n : Nat} {s s1 : Scanner} {c : Nat}
    (hadv : advance s = Exec.done (s1, c))
    (h : c ≠ 124 ∧ c ≠ 40 ∧ c ≠ 41 ∧ c ≠ 63 ∧ c ≠ 33 ∧ c ≠ 58) :
    scanToken (n + 1) s =
      if c = 34 then scanString n s1
      else if c = 32 ∨ c = 9 ∨ c = 13 then scanToken n s1
      else if c = 10 then
        scanToken n { s1 with line := (s1.line + 1) % 256, column := 0 }
      else if isInt c then scanInt n s1
      else if isAlpha c then scanIdentifier n s1
      else Exec.done (s1, zeroToken, some (unexpectedCharacter c)) := by
  obtain ⟨p1, p2, p3, p4, p5, p6⟩ := h
  simp only [scanToken, hadv, if_neg p1, if_neg p2, if_neg p3, if_neg p4, if_neg p5, if_neg p6]

theorem scanToken_letter {n : Nat} {s s1 : Scanner} {c : Nat}
    (hadv : advance s = Exec.done (s1, c)) (hc : isAlpha c = true) :
    scanToken (n + 1) s = scanIdentifier n s1 := by
  have hc1 : (c ≥ 97 ∧ c ≤ 122) ∨ (c ≥ 65 ∧ c ≤ 90) := by simpa [isAlpha] using hc
  have hi : ¬ isInt c = true := by
    simp only [isInt, decide_eq_true_eq]
    omega
  have q1 : ¬ c = 34 := by omega
  have q2 : ¬ (c = 32 ∨ c = 9 ∨ c = 13) := by omega
  have q3 : ¬ c = 10 := by omega
  rw [scanToken_other hadv (by omega), if_neg q1, if_neg q2, if_neg q3, if_neg hi, if_pos hc]

theorem scanToken_digit {n : Nat} {s s1 : Scanner} {c : Nat}
    (hadv : advance s = Exec.done (s1, c)) (hc : isInt c = true) :
    scanToken (n + 1) s = scanInt n s1 := by
  have hc1 : c ≥ 48 ∧ c ≤ 57 := by simpa [isInt] using hc
  have q1 : ¬ c = 34 := by omega
  have q2 : ¬ (c = 32 ∨ c = 9 ∨ c = 13) := by omega
  have q3 : ¬ c = 10 := by omega
  rw [scanToken_other hadv (by omega), if_neg q1, if_neg q2, if_neg q3, if_pos hc]

theorem scanToken_quote {n : Nat} {s s1 : Scanner} {c : Nat}
    (hadv : advance s = Exec.done (s1, c)) (hc : c = 34) :
    scanToken (n + 1) s = scanString n s1 := by
  rw [scanToken_other hadv (by omega), if_pos hc]

theorem scanToken_blank {n : Nat} {s s1 : Scanner} {c : Nat}
    (hadv : advance s = Exec.done (s1, c)) (hc : c = 32 ∨ c = 9 ∨ c = 13) :
    scanToken (n + 1) s = scanToken n s1 := by
  have q1 : ¬ c = 34 := by omega
  rw [scanToken_other hadv (by omega), if_neg q1, if_pos hc]

theorem scanToken_newline {n : Nat} {s s1 : Scanner} {c : Nat}
    (hadv : advance s = Exec.done (s1, c)) (hc : c = 10) :
    scanToken (n + 1) s = scanToken n { s1 with line := (s1.line + 1) % 256, column := 0 } := by
  have q1 : ¬ c = 34 := by omega
  have q2 : ¬ (c = 32 ∨ c = 9 ∨ c = 13) := by omega
  rw [scanToken_other hadv (by omega), if_neg q1, if_neg q2, if_pos hc]

theorem scanToken_unexpected {n : Nat} {s s1 : Scanner} {c : Nat}
    (hadv : advance s = Exec.done (s1, c))
    (hp : c ≠ 124 ∧ c ≠ 40 ∧ c ≠ 41 ∧ c ≠ 63 ∧ c ≠ 33 ∧ c ≠ 58)
    (hw : c ≠ 34 ∧ c ≠ 32 ∧ c ≠ 9 ∧ c ≠ 13 ∧ c ≠ 10)
    (hi : isInt c = false) (ha : isAlpha c = false) :
    scanToken (n + 1) s = Exec.done (s1, zeroToken, some (unexpectedCharacter c)) := by
  have q2 : ¬ (c = 32 ∨ c = 9 ∨ c = 13) := by omega
  rw [scanToken_other hadv hp, if_neg hw.1, if_neg q2, if_neg hw.2.2.2.2, hi, ha]
  rfl

/-! ## Literals and white space that run into the end of the source -/

theorem scanIdentifierLoop_letters {n : Nat} {s : Scanner} (hr : InRange s)
    (ha : ∀ b ∈ s.Source, isAlpha b = true) (hn : s.Source.length - s.currIndex < n) :
    scanIdentifierLoop n s = Exec.panic := by
  induction n generalizing s with
  | zero => omega
  | succ n ih =>
    simp only [scanIdentifierLoop]
    by_cases hlt : s.currIndex < s.Source.length
    · rw [peek_eq hlt]
      simp only [ha _ (List.getElem_mem hlt), if_true, advance_eq hr hlt]
      exact ih (s := { s with currIndex := s.currIndex + 1, column := (s.column + 1) % 256 })
        ⟨hlt, hr.2⟩ ha (by show s.Source.length - (s.currIndex + 1) < n; omega)
    · rw [peek_panic (by omega)]

theorem scanIntLoop_digits {n : Nat} {s : Scanner} {next : Nat} (hr : InRange s)
    (ha : ∀ b ∈ s.Source, isInt b = true) (hnext : isInt next = true)
    (hn : s.Source.length - s.currIndex < n) : scanIntLoop n s next = Exec.panic := by
  induction n generalizing s next with
  | zero => omega
  | succ n ih =>
    simp only [scanIntLoop, hnext, if_true]
    by_cases hlt : s.currIndex < s.Source.length
    · simp only [advance_eq hr hlt]
      exact ih (s := { s with currIndex := s.currIndex + 1, column := (s.column + 1) % 256 })
        ⟨hlt, hr.2⟩ ha (ha _ (List.getElem_mem hlt))
        (by show s.Source.length - (s.currIndex + 1) < n; omega)
    · rw [advance_panic hr (by omega)]

theorem scanToken_whitespace {n : Nat} {s : Scanner} (hr : InRange s)
    (ha : ∀ b ∈ s.Source, b = 32 ∨ b = 9 ∨ b = 13 ∨ b = 10)
    (hn : s.Source.length - s.currIndex < n) : scanToken n s = Exec.panic := by
  induction n generalizing s with
  | zero => omega
  | succ n ih =>
    by_cases hlt : s.currIndex < s.Source.length
    · have hadv := advance_eq hr hlt
      have hn1 : s.Source.length - (s.currIndex + 1) < n := by omega
      rcases ha _ (List.getElem_mem hlt) with h | h | h | h
      · rw [scanToken_blank hadv (Or.inl h)]
        exact ih ⟨hlt, hr.2⟩ ha hn1
      · rw [scanToken_blank hadv (Or.inr (Or.inl h))]
        exact ih ⟨hlt, hr.2⟩ ha hn1
      · rw [scanToken_blank hadv (Or.inr (Or.inr h))]
        exact ih ⟨hlt, hr.2⟩ ha hn1
      · rw [scanToken_newline hadv h]
        exact ih ⟨hlt, hr.2⟩ ha hn1
    · simp only [scanToken, advance_panic hr (by omega)]

theorem scanStringLoop_no_quote {n : Nat} {s : Scanner} (hr : InRange s)
    (ha : ∀ i (h : i < s.Source.length), s.currIndex ≤ i → s.Source[i] ≠ 34)
    (hn : s.Source.length - s.currIndex < n) : scanStringLoop n s = Exec.panic := by
  induction n generalizing s with
  | zero => omega
  | succ n ih =>
    simp only [scanStringLoop]
    by_cases hlt : s.currIndex < s.Source.length
    · rw [peek_eq hlt]
      have he : isEnd s = false := by
        unfold isEnd
        exact decide_eq_false (by omega)
      have hcond : s.Source[s.currIndex] ≠ 34 ∧ isEnd s = false :=
        ⟨ha _ hlt (Nat.le_refl _), he⟩
      simp only [if_pos hcond]
      generalize hq : (if s.Source[s.currIndex] = 10 then
          ({ s with line := (s.line + 1) % 256, column := 0 } : Scanner) else s) = q
      have q1 : q.Source = s.Source := by subst hq; split <;> rfl
      have q3 : q.currIndex = s.currIndex := by subst hq; split <;> rfl
      have hrq : InRange q := by
        unfold InRange
        rw [q1, q3]
        exact hr
      have hltq : q.currIndex < q.Source.length := by rw [q1, q3]; exact hlt
      simp only [advance_eq hrq hltq]
      refine ih (s := { q with currIndex := q.currIndex + 1, column := (q.column + 1) % 256 })
        ⟨hltq, hrq.2⟩ ?_ ?_
      · intro i h hi
        have h' : i < s.Source.length := by rw [← q1]; exact h
        have := ha i h' (by rw [← q3]; exact Nat.le_of_succ_le hi)
        simpa [q1] using this
      · show q.Source.length - (q.currIndex + 1) < n
        rw [q1, q3]
        omega
    · rw [peek_panic (by omega)]



theorem scanLoop_panic {n : Nat} {s : Scanner} {tokens : List Token} {errors : List ParseError}
    (he : isEnd s = false)
    (h : scanToken n { s with lastIndex := s.currIndex } = Exec.panic) :
    scanLoop (n + 1) s tokens errors = Exec.panic := by
  simp only [scanLoop, he, h, Bool.false_eq_true, if_false]

theorem scanSource_panic {n : Nat} {src : List Nat} (hne : src ≠ [])
    (h : scanToken n ⟨src, 1, 0, 0, 0⟩ = Exec.panic) : scanSource (n + 1) src = Exec.panic := by
  have he : isEnd ⟨src, 1, 0, 0, 0⟩ = false := by
    unfold isEnd
    exact decide_eq_false (by
      have := List.length_pos.mpr hne
      show ¬ src.length ≤ 0
      omega)
  have hl : scanLoop (n + 1) ⟨src, 1, 0, 0, 0⟩ [] [] = Exec.panic := scanLoop_panic he h
  unfold scanSource Scan newScanner
  simp only [hl]

theorem scanSource_letters (w : List Nat) (hne : w ≠ []) (ha : ∀ b ∈ w, isAlpha b = true)
    (hlen : w.length ≤ 65535) : scanSource (w.length + 2) w = Exec.panic := by
  have hpos : 0 < w.length := List.length_pos.mpr hne
  have hr : InRange ⟨w, 1, 0, 0, 0⟩ := ⟨Nat.zero_le _, hlen⟩
  have hadv := advance_eq hr hpos
  apply scanSource_panic hne
  rw [scanToken_letter hadv (ha _ (List.getElem_mem hpos))]
  unfold scanIdentifier
  rw [scanIdentifierLoop_letters ?_ ?_ ?_]
  · exact ⟨hpos, hlen⟩
  · exact ha
  · show w.length - (0 + 1) < w.length
    omega

theorem scanSource_digits (d : List Nat) (hne : d ≠ []) (ha : ∀ b ∈ d, isInt b = true)
    (hlen : d.length ≤ 65535) : scanSource (d.length + 2) d = Exec.panic := by
  have hpos : 0 < d.length := List.length_pos.mpr hne
  have hr : InRange ⟨d, 1, 0, 0, 0⟩ := ⟨Nat.zero_le _, hlen⟩
  have hadv := advance_eq hr hpos
  apply scanSource_panic hne
  rw [scanToken_digit hadv (ha _ (List.getElem_mem hpos))]
  unfold scanInt
  by_cases h1 : 1 < d.length
  · rw [peek_eq (by exact h1)]
    simp only
    rw [scanIntLoop_digits ?_ ?_ ?_ ?_]
    · exact ⟨hpos, hlen⟩
    · exact ha
    · exact ha _ (List.getElem_mem _)
    · show d.length - (0 + 1) < d.length
      omega
  · rw [peek_panic (by show d.length ≤ 0 + 1; omega)]

theorem scanSource_whitespace (src : List Nat) (hne : src ≠ [])
    (ha : ∀ b ∈ src, b = 32 ∨ b = 9 ∨ b = 13 ∨ b = 10) (hlen : src.length ≤ 65535) :
    scanSource (src.length + 2) src = Exec.panic := by
  have hr : InRange ⟨src, 1, 0, 0, 0⟩ := ⟨Nat.zero_le _, hlen⟩
  apply scanSource_panic hne
  exact scanToken_whitespace hr ha (by show src.length - 0 < src.length + 1; omega)

theorem scanSource_open_quote (rest : List Nat) (ha : ∀ b ∈ rest, b ≠ 34)
    (hlen : rest.length + 1 ≤ 65535) :
    scanSource (rest.length + 3) (34 :: rest) = Exec.panic := by
  have hpos : 0 < (34 :: rest).length := by simp
  have hr : InRange ⟨34 :: rest, 1, 0, 0, 0⟩ := ⟨Nat.zero_le _, by simpa using hlen⟩
  have hadv := advance_eq hr hpos
  apply scanSource_panic (by simp)
  rw [scanToken_quote hadv (by simp)]
  unfold scanString
  rw [scanStringLoop_no_quote ?_ ?_ ?_]
  · exact ⟨hpos, hr.2⟩
  · intro i h hi
    obtain ⟨j, rfl⟩ : ∃ j, i = j + 1 := ⟨i - 1, by
      have : 1 ≤ i := hi
      omega⟩
    have hj : j < rest.length := by simpa using h
    have : (34 :: rest)[j + 1] = rest[j] := by simp
    show (34 :: rest)[j + 1] ≠ 34
    rw [this]
    exact ha _ (List.getElem_mem hj)
  · show (34 :: rest).length - (0 + 1) < rest.length + 1
    simp

/-! ## A source of 65536 bytes: the cursor wraps -/

theorem advance_replicate {s : Scanner} {b : Nat} (hs : s.Source = List.replicate 65536 b)
    (hc : s.currIndex < 65536) :
    advance s = Exec.done
      ({ s with currIndex := (s.currIndex + 1) % 65536, column := (s.column + 1) % 256 }, b) := by
  have e : ((s.currIndex + 1) % 65536 + 65535) % 65536 = s.currIndex := by omega
  unfold advance
  simp only [e, hs, List.getElem?_replicate, if_pos hc]

theorem scanIdentifierLoop_replicate (n : Nat) (s : Scanner)
    (hs : s.Source = List.replicate 65536 97) (hc : s.currIndex < 65536) :
    scanIdentifierLoop n s = Exec.fuel := by
  induction n generalizing s with
  | zero => rfl
  | succ n ih =>
    have hp : peek s = Exec.done 97 := by
      unfold peek
      simp only [hs, List.getElem?_replicate, if_pos hc]
    have hal : isAlpha 97 = true := by decide
    simp only [scanIdentifierLoop, hp, hal, if_true, advance_replicate hs hc]
    exact ih _ hs (Nat.mod_lt _ (by omega))

theorem scanLoop_replicate (n : Nat) (s : Scanner) (tokens : List Token)
    (errors : List ParseError) (hs : s.Source = List.replicate 65536 97)
    (hc : s.currIndex < 65536) : scanLoop n s tokens errors = Exec.fuel := by
  cases n with
  | zero => rfl
  | succ n =>
    have he : isEnd s = false := by
      unfold isEnd
      rw [hs, List.length_replicate]
      exact decide_eq_false (by omega)
    simp only [scanLoop, he]
    cases n with
    | zero => rfl
    | succ m =>
      have ha := advance_replicate (s := { s with lastIndex := s.currIndex }) hs hc
      have ht : scanToken (m + 1) { s with lastIndex := s.currIndex } = Exec.fuel := by
        rw [scanToken_letter ha (by decide)]
        unfold scanIdentifier
        rw [scanIdentifierLoop_replicate m _ ?_ ?_]
        · exact hs
        · exact Nat.mod_lt _ (by omega)
      simp only [ht, Bool.false_eq_true, if_false]

/-! ## Without a bound on the source: the cursor stays below 65536 -/

theorem advance_source {s s1 : Scanner} {c : Nat} (h : advance s = Exec.done (s1, c)) :
    s1.Source = s.Source ∧ s1.currIndex < 65536 := by
  unfold advance at h
  simp only at h
  split at h
  · simp only [Exec.done.injEq, Prod.mk.injEq] at h
    obtain ⟨h1, _⟩ := h
    subst h1
    exact ⟨rfl, Nat.mod_lt _ (by omega)⟩
  · exact absurd h (by simp)

theorem scanIntLoop_source {n : Nat} {s s1 : Scanner} {next : Nat} (hb : s.currIndex < 65536)
    (h : scanIntLoop n s next = Exec.done s1) :
    s1.Source = s.Source ∧ s1.currIndex < 65536 := by
  induction n generalizing s next with
  | zero => exact absurd h (by simp [scanIntLoop])
  | succ n ih =>
    simp only [scanIntLoop] at h
    split at h
    · cases hadv : advance s with
      | done p =>
        obtain ⟨s2, c⟩ := p
        simp only [hadv] at h
        obtain ⟨e2, b2⟩ := advance_source hadv
        obtain ⟨e1, b1⟩ := ih b2 h
        exact ⟨e1.trans e2, b1⟩
      | panic => simp [hadv] at h
      | fuel => simp [hadv] at h
    · simp only [Exec.done.injEq] at h
      subst h
      exact ⟨rfl, hb⟩

theorem scanIdentifierLoop_source {n : Nat} {s s1 : Scanner} (hb : s.currIndex < 65536)
    (h : scanIdentifierLoop n s = Exec.done s1) :
    s1.Source = s.Source ∧ s1.currIndex < 65536 := by
  induction n generalizing s with
  | zero => exact absurd h (by simp [scanIdentifierLoop])
  | succ n ih =>
    simp only [scanIdentifierLoop] at h
    cases hp : peek s with
    | done next =>
      simp only [hp] at h
      split at h
      · cases hadv : advance s with
        | done p =>
          obtain ⟨s2, c⟩ := p
          simp only [hadv] at h
          obtain ⟨e2, b2⟩ := advance_source hadv
          obtain ⟨e1, b1⟩ := ih b2 h
          exact ⟨e1.trans e2, b1⟩
        | panic => simp [hadv] at h
        | fuel => simp [hadv] at h
      · simp only [Exec.done.injEq] at h
        subst h
        exact ⟨rfl, hb⟩
    | panic => simp [hp] at h
    | fuel => simp [hp] at h

/-- When the loop of `scanString` ends, it has just read `Source[currIndex]`: the cursor is
inside the source. -/
theorem scanStringLoop_source {n : Nat} {s s1 : Scanner}
    (h : scanStringLoop n s = Exec.done s1) :
    s1.Source = s.Source ∧ s1.currIndex < s1.Source.length ∧
      (s.currIndex < 65536 → s1.currIndex < 65536) := by
  induction n generalizing s with
  | zero => exact absurd h (by simp [scanStringLoop])
  | succ n ih =>
    simp only [scanStringLoop] at h
    cases hp : peek s with
    | done next =>
      simp only [hp] at h
      split at h
      · generalize hq : (if next = 10 then
            ({ s with line := (s.line + 1) % 256, column := 0 } : Scanner) else s) = q at h
        have q1 : q.Source = s.Source := by subst hq; split <;> rfl
        cases hadv : advance q with
        | done p =>
          obtain ⟨s2, c⟩ := p
          simp only [hadv] at h
          obtain ⟨e2, b2⟩ := advance_source hadv
          obtain ⟨e1, l1, b1⟩ := ih h
          exact ⟨e1.trans (e2.trans q1), l1, fun _ => b1 b2⟩
        | panic => simp [hadv] at h
        | fuel => simp [hadv] at h
      · simp only [Exec.done.injEq] at h
        subst h
        refine ⟨rfl, ?_, fun hb => hb⟩
        unfold peek at hp
        split at hp
        · rename_i c hc
          exact (List.getElem?_eq_some_iff.mp hc).1
        · exact absurd hp (by simp)
    | panic => simp [hp] at h
    | fuel => simp [hp] at h

theorem scanInt_source {n : Nat} {s s1 : Scanner} {tok : Token} {e : Option String}
    (hb : s.currIndex < 65536) (h : scanInt n s = Exec.done (s1, tok, e)) :
    s1.Source = s.Source ∧ s1.currIndex < 65536 ∧ e = none := by
  unfold scanInt at h
  cases hp : peek s with
  | done next =>
    simp only [hp] at h
    cases hl : scanIntLoop n s next with
    | done s2 =>
      simp only [hl] at h
      obtain ⟨e1, e2, _⟩ := returnToken_done h
      subst e1
      obtain ⟨a, b⟩ := scanIntLoop_source hb hl
      exact ⟨a, b, e2⟩
    | panic => simp [hl] at h
    | fuel => simp [hl] at h
  | panic => simp [hp] at h
  | fuel => simp [hp] at h

theorem scanIdentifier_source {n : Nat} {s s1 : Scanner} {tok : Token} {e : Option String}
    (hb : s.currIndex < 65536) (h : scanIdentifier n s = Exec.done (s1, tok, e)) :
    s1.Source = s.Source ∧ s1.currIndex < 65536 ∧ e = none := by
  unfold scanIdentifier at h
  cases hl : scanIdentifierLoop n s with
  | done s2 =>
    simp only [hl] at h
    obtain ⟨a, b⟩ := scanIdentifierLoop_source hb hl
    split at h
    · split at h
      · obtain ⟨e1, e2, _⟩ := returnToken_done h
        subst e1
        exact ⟨a, b, e2⟩
      · obtain ⟨e1, e2, _⟩ := returnToken_done h
        subst e1
        exact ⟨a, b, e2⟩
    · exact absurd h (by simp)
    · exact absurd h (by simp)
  | panic => simp [hl] at h
  | fuel => simp [hl] at h

/-- `scanString` never takes its `if s.isEnd()` branch: when it returns, it returns a
`STRING` token and no error. -/
theorem scanString_source {n : Nat} {s s1 : Scanner} {tok : Token} {e : Option String}
    (h : scanString n s = Exec.done (s1, tok, e)) :
    s1.Source = s.Source ∧ s1.currIndex < 65536 ∧ e = none ∧ tok.Typ = TokenType.STRING := by
  unfold scanString at h
  cases hl : scanStringLoop n s with
  | done s2 =>
    simp only [hl] at h
    obtain ⟨a, l, _⟩ := scanStringLoop_source hl
    have he : isEnd s2 = false := by
      unfold isEnd
      exact decide_eq_false (by omega)
    simp only [he, Bool.false_eq_true, if_false] at h
    cases hadv : advance s2 with
    | done p =>
      obtain ⟨s3, c⟩ := p
      simp only [hadv] at h
      obtain ⟨a3, b3⟩ := advance_source hadv
      split at h
      · simp only [Exec.done.injEq, Prod.mk.injEq] at h
        obtain ⟨e1, e2, e3⟩ := h
        subst e1 e2 e3
        exact ⟨a3.trans a, b3, rfl, rfl⟩
      · exact absurd h (by simp)
      · exact absurd h (by simp)
    | panic => simp [hadv] at h
    | fuel => simp [hadv] at h
  | panic => simp [hl] at h
  | fuel => simp [hl] at h

/-- The only error `scanToken` returns is the one of its `default` branch. -/
theorem scanToken_source {n : Nat} {s s1 : Scanner} {tok : Token} {e : Option String}
    (h : scanToken n s = Exec.done (s1, tok, e)) :
    s1.Source = s.Source ∧ s1.currIndex < 65536 ∧
      (e = none ∨ ∃ c, e = some (unexpectedCharacter c)) := by
  induction n generalizing s with
  | zero => exact absurd h (by simp [scanToken])
  | succ n ih =>
    simp only [scanToken] at h
    cases hadv : advance s with
    | done p =>
      obtain ⟨s2, c⟩ := p
      simp only [hadv] at h
      obtain ⟨a2, b2⟩ := advance_source hadv
      have ret : ∀ t : TokenType, returnToken s2 t = Exec.done (s1, tok, e) →
          s1.Source = s.Source ∧ s1.currIndex < 65536 ∧
            (e = none ∨ ∃ c, e = some (unexpectedCharacter c)) := by
        intro t ht
        obtain ⟨e1, e2, _⟩ := returnToken_done ht
        subst e1
        exact ⟨a2, b2, Or.inl e2⟩
      by_cases h1 : c = 124
      · simp only [if_pos h1] at h
        exact ret _ h
      simp only [if_neg h1] at h
      by_cases h2 : c = 40
      · simp only [if_pos h2] at h
        exact ret _ h
      simp only [if_neg h2] at h
      by_cases h3 : c = 41
      · simp only [if_pos h3] at h
        exact ret _ h
      simp only [if_neg h3] at h
      by_cases h4 : c = 63
      · simp only [if_pos h4] at h
        exact ret _ h
      simp only [if_neg h4] at h
      by_cases h5 : c = 33
      · simp only [if_pos h5] at h
        exact ret _ h
      simp only [if_neg h5] at h
      by_cases h6 : c = 58
      · simp only [if_pos h6] at h
        exact ret _ h
      simp only [if_neg h6] at h
      by_cases h7 : c = 34
      · simp only [if_pos h7] at h
        obtain ⟨x, y, z, _⟩ := scanString_source h
        exact ⟨x.trans a2, y, Or.inl z⟩
      simp only [if_neg h7] at h
      by_cases h8 : c = 32 ∨ c = 9 ∨ c = 13
      · simp only [if_pos h8] at h
        obtain ⟨x, y, z⟩ := ih h
        exact ⟨x.trans a2, y, z⟩
      simp only [if_neg h8] at h
      by_cases h9 : c = 10
      · simp only [if_pos h9] at h
        obtain ⟨x, y, z⟩ := ih h
        exact ⟨x.trans a2, y, z⟩
      simp only [if_neg h9] at h
      by_cases h10 : isInt c = true
      · simp only [if_pos h10] at h
        obtain ⟨x, y, z⟩ := scanInt_source b2 h
        exact ⟨x.trans a2, y, Or.inl z⟩
      simp only [if_neg h10] at h
      by_cases h11 : isAlpha c = true
      · simp only [if_pos h11] at h
        obtain ⟨x, y, z⟩ := scanIdentifier_source b2 h
        exact ⟨x.trans a2, y, Or.inl z⟩
      simp only [if_neg h11, Exec.done.injEq, Prod.mk.injEq] at h
      obtain ⟨e1, _, e3⟩ := h
      subst e1
      exact ⟨a2, b2, Or.inr ⟨c, e3.symm⟩⟩
    | panic => simp [hadv] at h
    | fuel => simp [hadv] at h

/-- When the main loop ends, `isEnd` holds, the cursor is below 65536, and every error it
added carries the text of an unexpected character. -/
theorem scanLoop_source {n : Nat} {s s1 : Scanner} {tokens t1 : List Token}
    {errors e1 : List ParseError} (hb : s.currIndex < 65536)
    (h : scanLoop n s tokens errors = Exec.done (s1, t1, e1)) :
    s1.Source = s.Source ∧ s1.currIndex < 65536 ∧ isEnd s1 = true ∧
      ∀ x ∈ e1, x ∈ errors ∨ ∃ c, x.Cause = unexpectedCharacter c := by
  induction n generalizing s tokens errors with
  | zero => exact absurd h (by simp [scanLoop])
  | succ n ih =>
    simp only [scanLoop] at h
    by_cases he : isEnd s = true
    · simp only [he, if_true, Exec.done.injEq, Prod.mk.injEq] at h
      obtain ⟨a, _, c⟩ := h
      subst a c
      exact ⟨rfl, hb, he, fun x hx => Or.inl hx⟩
    · simp only [he, if_false] at h
      cases ht : scanToken n { s with lastIndex := s.currIndex } with
      | done p =>
        obtain ⟨s2, token, err⟩ := p
        simp only [ht] at h
        obtain ⟨a2, b2, c2⟩ := scanToken_source ht
        cases err with
        | some cause =>
          obtain ⟨x, y, z, w⟩ := ih b2 h
          refine ⟨x.trans a2, y, z, fun q hq => ?_⟩
          rcases w q hq with hw | hw
          · rcases List.mem_append.mp hw with hw | hw
            · exact Or.inl hw
            · rcases c2 with c2 | ⟨c, hc⟩
              · exact absurd c2 (by simp)
              · simp only [List.mem_singleton] at hw
                subst hw
                exact Or.inr ⟨c, by simpa using hc⟩
          · exact Or.inr hw
        | none =>
          obtain ⟨x, y, z, w⟩ := ih b2 h
          exact ⟨x.trans a2, y, z, w⟩
      | panic => simp [ht] at h
      | fuel => simp [ht] at h

/-- `Scan` returns only on a source of at most 65535 bytes. -/
theorem Scan_done_length {n : Nat} {s : Scanner} {r : ScanResult} (h : Scan n s = Exec.done r) :
    s.Source.length ≤ 65535 := by
  unfold Scan at h
  split at h
  · rename_i s1 tokens errors hl
    obtain ⟨a, b, c, _⟩ := scanLoop_source (by show 0 < 65536; omega) hl
    unfold isEnd at c
    have c1 : s1.currIndex ≥ s1.Source.length := of_decide_eq_true c
    have a1 : s1.Source.length = s.Source.length := congrArg List.length a
    omega
  · exact absurd h (by simp)
  · exact absurd h (by simp)

/-! ## The token a call of `scanToken` returns -/

theorem newToken_done {s : Scanner} {t : TokenType} {tok : Token}
    (h : newToken s t = Exec.done tok) :
    tok = ⟨t, s.line, s.column, (s.Source.drop s.lastIndex).take (s.currIndex - s.lastIndex)⟩ ∧
      s.lastIndex ≤ s.currIndex ∧ s.currIndex ≤ s.Source.length := by
  unfold newToken slice at h
  by_cases hc : s.lastIndex ≤ s.currIndex ∧ s.currIndex ≤ s.Source.length
  · simp only [if_pos hc, Exec.done.injEq] at h
    exact ⟨h.symm, hc.1, hc.2⟩
  · simp [if_neg hc] at h

theorem returnToken_token {s s1 : Scanner} {t : TokenType} {tok : Token} {e : Option String}
    (h : returnToken s t = Exec.done (s1, tok, e)) :
    s1 = s ∧ e = none ∧ tok.Typ = t ∧ tok.Line = s.line ∧ tok.Column = s.column ∧
      tok.Lexeme = (s.Source.drop s.lastIndex).take (s.currIndex - s.lastIndex) := by
  obtain ⟨a, b, c⟩ := returnToken_done h
  obtain ⟨d, _, _⟩ := newToken_done c
  subst d
  exact ⟨a, b, rfl, rfl, rfl, rfl⟩

theorem keywords_ne_STRING {w : List Nat} {k : TokenType} (h : keywords w = some k) :
    k ≠ TokenType.STRING := by
  unfold keywords at h
  split_ifs at h <;> simp only [Option.some.injEq] at h <;> subst h <;> simp

/-- What the `switch` of `scanToken` does with the byte `c` that `advance` returned. -/
theorem scanToken_cases (n : Nat) {s s2 : Scanner} {c : Nat}
    (hadv : advance s = Exec.done (s2, c)) :
    ((c = 124 ∨ c = 40 ∨ c = 41 ∨ c = 63 ∨ c = 33 ∨ c = 58) ∧
        ∃ t, t ≠ TokenType.STRING ∧ scanToken (n + 1) s = returnToken s2 t) ∨
      (c = 34 ∧ scanToken (n + 1) s = scanString n s2) ∨
      ((c = 32 ∨ c = 9 ∨ c = 13) ∧ scanToken (n + 1) s = scanToken n s2) ∨
      (c = 10 ∧ scanToken (n + 1) s =
        scanToken n { s2 with line := (s2.line + 1) % 256, column := 0 }) ∨
      (isInt c = true ∧ scanToken (n + 1) s = scanInt n s2) ∨
      (isAlpha c = true ∧ scanToken (n + 1) s = scanIdentifier n s2) ∨
      ((c ≠ 124 ∧ c ≠ 40 ∧ c ≠ 41 ∧ c ≠ 63 ∧ c ≠ 33 ∧ c ≠ 58) ∧
        (c ≠ 34 ∧ c ≠ 32 ∧ c ≠ 9 ∧ c ≠ 13 ∧ c ≠ 10) ∧ isInt c = false ∧ isAlpha c = false ∧
        scanToken (n + 1) s = Exec.done (s2, zeroToken, some (unexpectedCharacter c))) := by
  by_cases hp : c = 124 ∨ c = 40 ∨ c = 41 ∨ c = 63 ∨ c = 33 ∨ c = 58
  · refine Or.inl ⟨hp, ?_⟩
    simp only [scanToken, hadv]
    rcases hp with h | h | h | h | h | h
    · exact ⟨TokenType.PIPE, by simp, by simp [h]⟩
    · exact ⟨TokenType.LEFT_PAREN, by simp, by simp [h]⟩
    · exact ⟨TokenType.RIGHT_PAREN, by simp, by simp [h]⟩
    · exact ⟨TokenType.QUESTION_MARK, by simp, by simp [h]⟩
    · exact ⟨TokenType.EXCLAMATION_MARK, by simp, by simp [h]⟩
    · exact ⟨TokenType.DOUBLE_COLON, by simp, by simp [h]⟩
  · have hp1 : c ≠ 124 ∧ c ≠ 40 ∧ c ≠ 41 ∧ c ≠ 63 ∧ c ≠ 33 ∧ c ≠ 58 := by omega
    by_cases h7 : c = 34
    · exact Or.inr (Or.inl ⟨h7, scanToken_quote hadv h7⟩)
    by_cases h8 : c = 32 ∨ c = 9 ∨ c = 13
    · exact Or.inr (Or.inr (Or.inl ⟨h8, scanToken_blank hadv h8⟩))
    by_cases h9 : c = 10
    · exact Or.inr (Or.inr (Or.inr (Or.inl ⟨h9, scanToken_newline hadv h9⟩)))
    by_cases h10 : isInt c = true
    · exact Or.inr (Or.inr (Or.inr (Or.inr (Or.inl ⟨h10, scanToken_digit hadv h10⟩))))
    by_cases h11 : isAlpha c = true
    · exact Or.inr (Or.inr (Or.inr (Or.inr (Or.inr (Or.inl
        ⟨h11, scanToken_letter hadv h11⟩)))))
    · have hw : c ≠ 34 ∧ c ≠ 32 ∧ c ≠ 9 ∧ c ≠ 13 ∧ c ≠ 10 := by omega
      have hi : isInt c = false := by simpa using h10
      have ha : isAlpha c = false := by simpa using h11
      exact Or.inr (Or.inr (Or.inr (Or.inr (Or.inr (Or.inr
        ⟨hp1, hw, hi, ha, scanToken_unexpected hadv hp1 hw hi ha⟩)))))

theorem span_infix (src : List Nat) (lo k : Nat) : List.IsInfix ((src.drop lo).take k) src :=
  List.IsInfix.trans (List.take_prefix k (src.drop lo)).isInfix
    (List.drop_suffix lo src).isInfix

theorem advance_mem {s s1 : Scanner} {c : Nat} (hr : InRange s)
    (h : advance s = Exec.done (s1, c)) : c ∈ s.Source := by
  obtain ⟨_, hc, _⟩ := advance_done hr h
  obtain ⟨hlt, he⟩ := List.getElem?_eq_some_iff.mp hc
  exact he ▸ List.getElem_mem hlt

theorem scanInt_token {n : Nat} {s s1 : Scanner} {tok : Token} {e : Option String}
    (hr : InRange s) (h : scanInt n s = Exec.done (s1, tok, e)) :
    e = none ∧ tok.Typ = TokenType.INTEGER ∧
      tok.Lexeme = (s.Source.drop s.lastIndex).take (s1.currIndex - s.lastIndex) := by
  obtain ⟨hs, hl, _, _⟩ := scanInt_later hr h
  unfold scanInt at h
  cases hp : peek s with
  | done next =>
    simp only [hp] at h
    cases hq : scanIntLoop n s next with
    | done s2 =>
      simp only [hq] at h
      obtain ⟨a, b, c, _, _, d⟩ := returnToken_token h
      subst a
      rw [hs, hl] at d
      exact ⟨b, c, d⟩
    | panic => simp [hq] at h
    | fuel => simp [hq] at h
  | panic => simp [hp] at h
  | fuel => simp [hp] at h

theorem scanIdentifier_token {n : Nat} {s s1 : Scanner} {tok : Token} {e : Option String}
    (hr : InRange s) (h : scanIdentifier n s = Exec.done (s1, tok, e)) :
    e = none ∧ tok.Typ ≠ TokenType.STRING ∧
      tok.Lexeme = (s.Source.drop s.lastIndex).take (s1.currIndex - s.lastIndex) := by
  obtain ⟨hs, hl, _, _⟩ := scanIdentifier_later hr h
  unfold scanIdentifier at h
  cases hq : scanIdentifierLoop n s with
  | done s2 =>
    simp only [hq] at h
    split at h
    · split at h
      · rename_i k hk
        obtain ⟨a, b, c, _, _, d⟩ := returnToken_token h
        subst a
        rw [hs, hl] at d
        exact ⟨b, c ▸ keywords_ne_STRING hk, d⟩
      · obtain ⟨a, b, c, _, _, d⟩ := returnToken_token h
        subst a
        rw [hs, hl] at d
        exact ⟨b, by rw [c]; simp, d⟩
    · exact absurd h (by simp)
    · exact absurd h (by simp)
  | panic => simp [hq] at h
  | fuel => simp [hq] at h

theorem scanString_token {n : Nat} {s s1 : Scanner} {tok : Token} {e : Option String}
    (h : scanString n s = Exec.done (s1, tok, e)) :
    e = none ∧ tok.Typ = TokenType.STRING ∧ List.IsInfix tok.Lexeme s.Source := by
  obtain ⟨_, _, he, ht⟩ := scanString_source h
  refine ⟨he, ht, ?_⟩
  unfold scanString at h
  cases hl : scanStringLoop n s with
  | done s2 =>
    simp only [hl] at h
    obtain ⟨a, _, _⟩ := scanStringLoop_source hl
    split at h
    · simp only [Exec.done.injEq, Prod.mk.injEq] at h
      rw [← h.2.1]
      simp [zeroToken]
    · cases hadv : advance s2 with
      | done p =>
        obtain ⟨s3, c⟩ := p
        simp only [hadv] at h
        obtain ⟨a3, _⟩ := advance_source hadv
        unfold slice at h
        split_ifs at h
        simp only [Exec.done.injEq, Prod.mk.injEq] at h
        rw [← h.2.1, a3, a]
        exact span_infix _ _ _
      | panic => simp [hadv] at h
      | fuel => simp [hadv] at h
  | panic => simp [hl] at h
  | fuel => simp [hl] at h

/-- The three ways `scanToken` returns: a token cut by `newToken` from `lastIndex` to the
cursor, a `STRING` token, or the error of an unexpected byte. -/
theorem scanToken_token {n : Nat} {s s1 : Scanner} {tok : Token} {e : Option String}
    (hr : InRange s) (h : scanToken n s = Exec.done (s1, tok, e)) :
    (e = none ∧ tok.Typ ≠ TokenType.STRING ∧
        tok.Lexeme = (s.Source.drop s.lastIndex).take (s1.currIndex - s.lastIndex)) ∨
      (e = none ∧ tok.Typ = TokenType.STRING ∧ 34 ∈ s.Source ∧
        List.IsInfix tok.Lexeme s.Source) ∨
      (∃ c ∈ s.Source, e = some (unexpectedCharacter c) ∧
        (c ≠ 124 ∧ c ≠ 40 ∧ c ≠ 41 ∧ c ≠ 63 ∧ c ≠ 33 ∧ c ≠ 58) ∧
        (c ≠ 34 ∧ c ≠ 32 ∧ c ≠ 9 ∧ c ≠ 13 ∧ c ≠ 10) ∧ isInt c = false ∧
        isAlpha c = false) := by
  induction n generalizing s with
  | zero => exact absurd h (by simp [scanToken])
  | succ n ih =>
    cases hadv : advance s with
    | done p =>
      obtain ⟨s2, c⟩ := p
      obtain ⟨hr2, hl2, _⟩ := advance_later hr hadv
      have hmem := advance_mem hr hadv
      obtain ⟨hs2, hli2, _, _⟩ := hl2
      rcases scanToken_cases n hadv with ⟨_, t, ht, heq⟩ | ⟨hc, heq⟩ | ⟨_, heq⟩ | ⟨_, heq⟩ |
        ⟨_, heq⟩ | ⟨_, heq⟩ | ⟨hp, hw, hi, ha, heq⟩
      · rw [heq] at h
        obtain ⟨a, b, c1, _, _, d⟩ := returnToken_token h
        subst a
        rw [hs2, hli2] at d
        exact Or.inl ⟨b, c1 ▸ ht, d⟩
      · rw [heq] at h
        obtain ⟨a, b, c1⟩ := scanString_token h
        rw [hs2] at c1
        exact Or.inr (Or.inl ⟨a, b, hc ▸ hmem, c1⟩)
      · rw [heq] at h
        have := ih hr2 h
        rw [hs2, hli2] at this
        exact this
      · rw [heq] at h
        have := ih (s := { s2 with line := (s2.line + 1) % 256, column := 0 }) hr2 h
        simp only [hs2, hli2] at this
        exact this
      · rw [heq] at h
        obtain ⟨a, b, c1⟩ := scanInt_token hr2 h
        rw [hs2, hli2] at c1
        exact Or.inl ⟨a, by rw [b]; simp, c1⟩
      · rw [heq] at h
        obtain ⟨a, b, c1⟩ := scanIdentifier_token hr2 h
        rw [hs2, hli2] at c1
        exact Or.inl ⟨a, b, c1⟩
      · rw [heq] at h
        simp only [Exec.done.injEq, Prod.mk.injEq] at h
        exact Or.inr (Or.inr ⟨c, hmem, h.2.2.symm, hp, hw, hi, ha⟩)
    | panic => simp [scanToken, hadv] at h
    | fuel => simp [scanToken, hadv] at h

/-! ## Invariants of the main loop -/

/-- A property of the scanner state and of the two lists `tokens` and `errors` that one round
of the main loop keeps holds when the loop ends. -/
theorem scanLoop_invariant (P : Scanner → List Token → List ParseError → Prop)
    (hstep : ∀ (m : Nat) (s s1 : Scanner) (toks : List Token) (errs : List ParseError)
      (tok : Token) (e : Option String), InRange s → P s toks errs → isEnd s = false →
      scanToken m { s with lastIndex := s.currIndex } = Exec.done (s1, tok, e) →
      (∀ cause, e = some cause → P s1 toks (errs ++ [⟨s1.line, cause⟩])) ∧
        (e = none → P s1 (toks ++ [tok]) errs))
    {n : Nat} {s s1 : Scanner} {tokens t1 : List Token} {errors e1 : List ParseError}
    (hr : InRange s) (h0 : P s tokens errors)
    (h : scanLoop n s tokens errors = Exec.done (s1, t1, e1)) :
    P s1 t1 e1 ∧ isEnd s1 = true ∧ InRange s1 := by
  induction n generalizing s tokens errors with
  | zero => exact absurd h (by simp [scanLoop])
  | succ n ih =>
    simp only [scanLoop] at h
    by_cases he : isEnd s = true
    · simp only [he, if_true, Exec.done.injEq, Prod.mk.injEq] at h
      obtain ⟨a, b, c⟩ := h
      subst a b c
      exact ⟨h0, he, hr⟩
    · simp only [he, if_false] at h
      have he0 : isEnd s = false := by simpa using he
      have hr0 : InRange { s with lastIndex := s.currIndex } := hr
      cases ht : scanToken n { s with lastIndex := s.currIndex } with
      | done p =>
        obtain ⟨s2, token, err⟩ := p
        simp only [ht] at h
        obtain ⟨hl, _⟩ := scanToken_later hr0 ht
        have hr2 : InRange s2 := hr0.later hl
        obtain ⟨hs1, hs2⟩ := hstep n s s2 tokens errors token err hr h0 he0 ht
        cases err with
        | some cause => exact ih hr2 (hs1 cause rfl) h
        | none => exact ih hr2 (hs2 rfl) h
      | panic => simp [ht] at h
      | fuel => simp [ht] at h

/-- Every token of the main loop is cut from the source, and only a `STRING` token can
have the empty lexeme. -/
theorem scanLoop_lexemes {n : Nat} {s s1 : Scanner} {t1 : List Token} {e1 : List ParseError}
    (hr : InRange s) (h : scanLoop n s [] [] = Exec.done (s1, t1, e1)) :
    ∀ t ∈ t1, List.IsInfix t.Lexeme s.Source ∧ (t.Typ ≠ TokenType.STRING → t.Lexeme ≠ []) := by
  have key := scanLoop_invariant
    (fun q toks _ => q.Source = s.Source ∧ ∀ t ∈ toks,
      List.IsInfix t.Lexeme s.Source ∧ (t.Typ ≠ TokenType.STRING → t.Lexeme ≠ []))
    ?_ hr ⟨rfl, fun t ht => absurd ht (List.not_mem_nil t)⟩ h
  · exact key.1.2
  · intro m q q1 toks errs tok e hrq hP _ ht
    obtain ⟨hsrc, hall⟩ := hP
    have hrq0 : InRange { q with lastIndex := q.currIndex } := hrq
    obtain ⟨hl, hlt⟩ := scanToken_later hrq0 ht
    have hsrc1 : q1.Source = s.Source := hl.1.trans hsrc
    refine ⟨fun _ _ => ⟨hsrc1, hall⟩, fun hnone => ⟨hsrc1, ?_⟩⟩
    intro t htm
    rcases List.mem_append.mp htm with htm | htm
    · exact hall t htm
    · simp only [List.mem_singleton] at htm
      subst htm
      rcases scanToken_token hrq0 ht with ⟨_, hty, hlx⟩ | ⟨_, hty, _, hin⟩ | ⟨c, _, he, _⟩
      · have hlx1 : t.Lexeme = (s.Source.drop q.currIndex).take (q1.currIndex - q.currIndex) := by
          rw [← hsrc]
          exact hlx
        refine ⟨hlx1 ▸ span_infix _ _ _, fun _ hnil => ?_⟩
        have hlen := congrArg List.length hlx1
        rw [hnil] at hlen
        simp only [List.length_nil, List.length_take, List.length_drop] at hlen
        have h1 : q.currIndex < q1.currIndex := hlt
        have h2 : q1.currIndex ≤ q1.Source.length := hl.2.2.2
        rw [hsrc1] at h2
        omega
      · refine ⟨?_, fun hne => absurd hty hne⟩
        have : List.IsInfix t.Lexeme q.Source := hin
        rw [hsrc] at this
        exact this
      · exact absurd he (by rw [hnone]; simp)

/-- On a source of recognised bytes without a double quote the main loop records no error
and the lexemes of its tokens, put end to end, are the bytes from 0 to the cursor. -/
theorem scanLoop_tiles {n : Nat} {s s1 : Scanner} {t1 : List Token} {e1 : List ParseError}
    (hr : InRange s) (h0 : s.currIndex = 0)
    (hb : ∀ b ∈ s.Source, b = 124 ∨ b = 40 ∨ b = 41 ∨ b = 63 ∨ b = 33 ∨ b = 58 ∨ b = 32 ∨
      b = 9 ∨ b = 13 ∨ b = 10 ∨ isInt b = true ∨ isAlpha b = true)
    (h : scanLoop n s [] [] = Exec.done (s1, t1, e1)) :
    e1 = [] ∧ (t1.map Token.Lexeme).flatten = s.Source := by
  have hnq : ∀ c ∈ s.Source, c ≠ 34 := by
    intro c hc h34
    subst h34
    have := hb 34 hc
    simp [isInt, isAlpha] at this
  have key := scanLoop_invariant
    (fun q toks errs => q.Source = s.Source ∧ errs = [] ∧
      (toks.map Token.Lexeme).flatten = s.Source.take q.currIndex)
    ?_ hr ⟨rfl, rfl, by simp [h0]⟩ h
  · obtain ⟨⟨hsrc, he, hfl⟩, hend, _⟩ := key
    refine ⟨he, ?_⟩
    rw [hfl]
    apply List.take_of_length_le
    unfold isEnd at hend
    have := of_decide_eq_true hend
    rw [hsrc] at this
    exact this
  · intro m q q1 toks errs tok e hrq hP _ ht
    obtain ⟨hsrc, herrs, hfl⟩ := hP
    have hrq0 : InRange { q with lastIndex := q.currIndex } := hrq
    obtain ⟨hl, hlt⟩ := scanToken_later hrq0 ht
    have hsrc1 : q1.Source = s.Source := hl.1.trans hsrc
    rcases scanToken_token hrq0 ht with ⟨hnone, _, hlx⟩ | ⟨_, _, hq, _⟩ |
      ⟨c, hc, _, hp, hw, hi, ha⟩
    · refine ⟨fun cause hcause => absurd (hnone ▸ hcause) (by simp), fun _ => ?_⟩
      refine ⟨hsrc1, herrs, ?_⟩
      have hlx1 : tok.Lexeme = (s.Source.drop q.currIndex).take (q1.currIndex - q.currIndex) := by
        rw [← hsrc]
        exact hlx
      have h1 : q.currIndex < q1.currIndex := hlt
      have hsplit : q1.currIndex = q.currIndex + (q1.currIndex - q.currIndex) := by omega
      rw [List.map_append, List.flatten_append, hfl]
      conv => rhs; rw [hsplit, List.take_add]
      simp [hlx1]
    · exact absurd rfl (hnq 34 (hsrc ▸ hq))
    · have hc1 : c ∈ s.Source := hsrc ▸ hc
      have := hb c hc1
      rw [hi, ha] at this
      simp at this
      omega

theorem unexpectedCharacter_ne (c : Nat) :
    unexpectedCharacter c ≠ "unterminated string literal." := by
  intro h
  have h1 := congrArg String.length h
  simp [unexpectedCharacter, String.length_append] at h1
  revert h1
  decide

/-! ## The states of a scan -/

theorem scanIntLoop_reach {src : List Nat} {n : Nat} {s s1 : Scanner} {next : Nat}
    (hr : Reach src s) (h : scanIntLoop n s next = Exec.done s1) : Reach src s1 := by
  induction n generalizing s next with
  | zero => exact absurd h (by simp [scanIntLoop])
  | succ n ih =>
    simp only [scanIntLoop] at h
    split at h
    · cases hadv : advance s with
      | done p =>
        obtain ⟨s2, c⟩ := p
        simp only [hadv] at h
        exact ih (hr.step hadv) h
      | panic => simp [hadv] at h
      | fuel => simp [hadv] at h
    · simp only [Exec.done.injEq] at h
      exact h ▸ hr

theorem scanIdentifierLoop_reach {src : List Nat} {n : Nat} {s s1 : Scanner}
    (hr : Reach src s) (h : scanIdentifierLoop n s = Exec.done s1) : Reach src s1 := by
  induction n generalizing s with
  | zero => exact absurd h (by simp [scanIdentifierLoop])
  | succ n ih =>
    simp only [scanIdentifierLoop] at h
    cases hp : peek s with
    | done next =>
      simp only [hp] at h
      split at h
      · cases hadv : advance s with
        | done p =>
          obtain ⟨s2, c⟩ := p
          simp only [hadv] at h
          exact ih (hr.step hadv) h
        | panic => simp [hadv] at h
        | fuel => simp [hadv] at h
      · simp only [Exec.done.injEq] at h
        exact h ▸ hr
    | panic => simp [hp] at h
    | fuel => simp [hp] at h

theorem scanStringLoop_reach {src : List Nat} {n : Nat} {s s1 : Scanner}
    (hr : Reach src s) (h : scanStringLoop n s = Exec.done s1) : Reach src s1 := by
  induction n generalizing s with
  | zero => exact absurd h (by simp [scanStringLoop])
  | succ n ih =>
    simp only [scanStringLoop] at h
    cases hp : peek s with
    | done next =>
      simp only [hp] at h
      split at h
      · generalize hq : (if next = 10 then
            ({ s with line := (s.line + 1) % 256, column := 0 } : Scanner) else s) = q at h
        have hrq : Reach src q := by
          subst hq
          split
          · exact hr.newline
          · exact hr
        cases hadv : advance q with
        | done p =>
          obtain ⟨s2, c⟩ := p
          simp only [hadv] at h
          exact ih (hrq.step hadv) h
        | panic => simp [hadv] at h
        | fuel => simp [hadv] at h
      · simp only [Exec.done.injEq] at h
        exact h ▸ hr
    | panic => simp [hp] at h
    | fuel => simp [hp] at h

/-- The state in which `scanToken` returns is a state of the scan. -/
theorem scanToken_reach {src : List Nat} {n : Nat} {s s1 : Scanner} {tok : Token}
    {e : Option String} (hr : Reach src s) (h : scanToken n s = Exec.done (s1, tok, e)) :
    Reach src s1 := by
  induction n generalizing s with
  | zero => exact absurd h (by simp [scanToken])
  | succ n ih =>
    cases hadv : advance s with
    | done p =>
      obtain ⟨s2, c⟩ := p
      have hr2 : Reach src s2 := hr.step hadv
      rcases scanToken_cases n hadv with ⟨_, t, _, heq⟩ | ⟨_, heq⟩ | ⟨_, heq⟩ | ⟨_, heq⟩ |
        ⟨_, heq⟩ | ⟨_, heq⟩ | ⟨_, _, _, _, heq⟩
      · rw [heq] at h
        exact (returnToken_done h).1 ▸ hr2
      · rw [heq] at h
        unfold scanString at h
        cases hl : scanStringLoop n s2 with
        | done s3 =>
          simp only [hl] at h
          have hr3 := scanStringLoop_reach hr2 hl
          split at h
          · simp only [Exec.done.injEq, Prod.mk.injEq] at h
            exact h.1 ▸ hr3
          · cases ha3 : advance s3 with
            | done p3 =>
              obtain ⟨s4, c4⟩ := p3
              simp only [ha3] at h
              split at h
              · simp only [Exec.done.injEq, Prod.mk.injEq] at h
                exact h.1 ▸ hr3.step ha3
              · exact absurd h (by simp)
              · exact absurd h (by simp)
            | panic => simp [ha3] at h
            | fuel => simp [ha3] at h
        | panic => simp [hl] at h
        | fuel => simp [hl] at h
      · rw [heq] at h
        exact ih hr2 h
      · rw [heq] at h
        exact ih hr2.newline h
      · rw [heq] at h
        unfold scanInt at h
        cases hp : peek s2 with
        | done next =>
          simp only [hp] at h
          cases hl : scanIntLoop n s2 next with
          | done s3 =>
            simp only [hl] at h
            exact (returnToken_done h).1 ▸ scanIntLoop_reach hr2 hl
          | panic => simp [hl] at h
          | fuel => simp [hl] at h
        | panic => simp [hp] at h
        | fuel => simp [hp] at h
      · rw [heq] at h
        unfold scanIdentifier at h
        cases hl : scanIdentifierLoop n s2 with
        | done s3 =>
          simp only [hl] at h
          have hr3 := scanIdentifierLoop_reach hr2 hl
          split at h
          · split at h
            · exact (returnToken_done h).1 ▸ hr3
            · exact (returnToken_done h).1 ▸ hr3
          · exact absurd h (by simp)
          · exact absurd h (by simp)
        | panic => simp [hl] at h
        | fuel => simp [hl] at h
      · rw [heq] at h
        simp only [Exec.done.injEq, Prod.mk.injEq] at h
        exact h.1 ▸ hr2
    | panic => simp [scanToken, hadv] at h
    | fuel => simp [scanToken, hadv] at h

/-- The state after some rounds of the main loop is a state of the scan. -/
theorem scanRounds_reach {src : List Nat} {n k : Nat} {s s1 : Scanner}
    (hr : Reach src s) (h : scanRounds n k s = Exec.done s1) : Reach src s1 := by
  induction k generalizing s with
  | zero =>
    simp only [scanRounds, Exec.done.injEq] at h
    exact h ▸ hr
  | succ k ih =>
    simp only [scanRounds] at h
    by_cases he : isEnd s = true
    · simp only [he, if_true, Exec.done.injEq] at h
      exact h ▸ hr
    · simp only [he, if_false] at h
      cases ht : scanToken n { s with lastIndex := s.currIndex } with
      | done p =>
        obtain ⟨s2, tok, e⟩ := p
        simp only [ht] at h
        exact ih (scanToken_reach (hr.mark (by simpa using he)) ht) h
      | panic => simp [ht] at h
      | fuel => simp [ht] at h

/-- The state in which the main loop of `Scan` ends is the state after its rounds. -/
theorem scanLoop_rounds {n m : Nat} {s s1 : Scanner} {tokens t1 : List Token}
    {errors e1 : List ParseError} (hm : n ≤ m)
    (h : scanLoop n s tokens errors = Exec.done (s1, t1, e1)) :
    scanRounds m n s = Exec.done s1 := by
  induction n generalizing s tokens errors with
  | zero => exact absurd h (by simp [scanLoop])
  | succ n ih =>
    simp only [scanLoop] at h
    simp only [scanRounds]
    by_cases he : isEnd s = true
    · simp only [he, if_true, Exec.done.injEq, Prod.mk.injEq] at h ⊢
      exact h.1
    · have he0 : isEnd s = false := by simpa using he
      simp only [he0, Bool.false_eq_true, if_false] at h ⊢
      cases ht : scanToken n { s with lastIndex := s.currIndex } with
      | done p =>
        obtain ⟨s2, tok, e⟩ := p
        simp only [ht] at h
        have hmono := scanToken_mono (n := n) (m := m) (by omega)
          { s with lastIndex := s.currIndex } (by rw [ht]; simp)
        rw [hmono, ht]
        simp only
        cases e with
        | some cause => exact ih (by omega) h
        | none => exact ih (by omega) h
      | panic => simp [ht] at h
      | fuel => simp [ht] at h

/-- On the source of 65536 bytes `#`, `k` rounds of the main loop from the offset `j` move
the cursor to `(j + k) % 65536` and leave the start of the last token at `j + k - 1`. -/
theorem scanRounds_replicate (k : Nat) (s : Scanner) (hk : 1 ≤ k)
    (hs : s.Source = List.replicate 65536 35) (hj : s.currIndex + k ≤ 65536) :
    ∃ s1, scanRounds 1 k s = Exec.done s1 ∧ s1.Source = List.replicate 65536 35 ∧
      s1.lastIndex = s.currIndex + k - 1 ∧ s1.currIndex = (s.currIndex + k) % 65536 := by
  induction k generalizing s with
  | zero => omega
  | succ k ih =>
    have hc : s.currIndex < 65536 := by omega
    have he : isEnd s = false := by
      unfold isEnd
      rw [hs, List.length_replicate]
      exact decide_eq_false (by omega)
    have ha := advance_replicate (s := { s with lastIndex := s.currIndex }) hs hc
    have ht := scanToken_unexpected (n := 0) ha (by omega) (by omega) (by decide) (by decide)
    simp only [scanRounds, he, Bool.false_eq_true, if_false, ht]
    by_cases hk0 : k = 0
    · subst hk0
      exact ⟨_, rfl, hs, rfl, rfl⟩
    · have hlt : s.currIndex + 1 < 65536 := by omega
      have hmod : (s.currIndex + 1) % 65536 = s.currIndex + 1 := Nat.mod_eq_of_lt hlt
      obtain ⟨s1, h1, h2, h3, h4⟩ := ih
        { s with lastIndex := s.currIndex, currIndex := (s.currIndex + 1) % 65536,
                 column := (s.column + 1) % 256 } (by omega) hs
        (by show (s.currIndex + 1) % 65536 + k ≤ 65536; omega)
      refine ⟨s1, h1, h2, ?_, ?_⟩
      · rw [h3]
        show (s.currIndex + 1) % 65536 + k - 1 = s.currIndex + (k + 1) - 1
        omega
      · rw [h4]
        show ((s.currIndex + 1) % 65536 + k) % 65536 = (s.currIndex + (k + 1)) % 65536
        omega

/-! ## Newlines followed by left parentheses -/

theorem advance_getElem? {s : Scanner} {c : Nat} (hr : InRange s)
    (hc : s.Source[s.currIndex]? = some c) :
    advance s = Exec.done
      ({ s with currIndex := s.currIndex + 1, column := (s.column + 1) % 256 }, c) := by
  obtain ⟨hlt, he⟩ := List.getElem?_eq_some_iff.mp hc
  rw [advance_eq hr hlt, he]

theorem returnToken_eq {s : Scanner} (t : TokenType) (h1 : s.lastIndex ≤ s.currIndex)
    (h2 : s.currIndex ≤ s.Source.length) :
    returnToken s t = Exec.done (s, ⟨t, s.line, s.column,
      (s.Source.drop s.lastIndex).take (s.currIndex - s.lastIndex)⟩, none) := by
  unfold returnToken newToken slice
  simp only [if_pos (And.intro h1 h2)]

theorem scanToken_paren {n : Nat} {s s1 : Scanner} {c : Nat}
    (hadv : advance s = Exec.done (s1, c)) (hc : c = 40) :
    scanToken (n + 1) s = returnToken s1 TokenType.LEFT_PAREN := by
  have q1 : ¬ c = 124 := by omega
  simp only [scanToken, hadv, if_neg q1, if_pos hc]

theorem newlines_parens_newline {n m i : Nat} (h : i < n) :
    (List.replicate n 10 ++ List.replicate m 40)[i]? = some 10 := by
  rw [List.getElem?_append_left (by simpa using h), List.getElem?_replicate_of_lt h]

theorem newlines_parens_paren {n m i : Nat} (h1 : n ≤ i) (h2 : i < n + m) :
    (List.replicate n 10 ++ List.replicate m 40)[i]? = some 40 := by
  rw [List.getElem?_append_right (by simpa using h1), List.length_replicate,
    List.getElem?_replicate_of_lt (by omega)]

theorem drop_take_one {l : List Nat} {i c : Nat} (h : l[i]? = some c) :
    (l.drop i).take 1 = [c] := by
  obtain ⟨hlt, he⟩ := List.getElem?_eq_some_iff.mp h
  rw [List.drop_eq_getElem_cons hlt, he]
  rfl

/-- From the offset `i` of a newline run that ends at `n`, where a `(` stands, one call of
`scanToken` skips the newlines and returns the `LEFT_PAREN`. -/
theorem scanToken_newlines {n m : Nat} (hm : 1 ≤ m) (hlen : n + m ≤ 65535) (d : Nat) :
    ∀ (i k : Nat), i + d = n → d + 1 ≤ k →
      scanToken k ⟨List.replicate n 10 ++ List.replicate m 40, (1 + i) % 256, 0, 0, i⟩ =
        Exec.done (⟨List.replicate n 10 ++ List.replicate m 40, (1 + n) % 256, 1, 0, n + 1⟩,
          ⟨TokenType.LEFT_PAREN, (1 + n) % 256, 1,
            (List.replicate n 10 ++ List.replicate m 40).take (n + 1)⟩, none) := by
  induction d with
  | zero =>
    intro i k hi hk
    obtain ⟨k, rfl⟩ : ∃ j, k = j + 1 := ⟨k - 1, by omega⟩
    have hin : i = n := by omega
    subst hin
    have hr : InRange ⟨List.replicate i 10 ++ List.replicate m 40, (1 + i) % 256, 0, 0, i⟩ :=
      ⟨by simp [InRange], by simpa [InRange] using hlen⟩
    have hadv := advance_getElem? hr
      (newlines_parens_paren (n := i) (m := m) (i := i) (Nat.le_refl i) (by omega))
    rw [scanToken_paren hadv rfl, returnToken_eq]
    · simp
    · exact Nat.zero_le _
    · show i + 1 ≤ (List.replicate i 10 ++ List.replicate m 40).length
      simp
      omega
  | succ d ih =>
    intro i k hi hk
    obtain ⟨k, rfl⟩ : ∃ j, k = j + 1 := ⟨k - 1, by omega⟩
    have hr : InRange ⟨List.replicate n 10 ++ List.replicate m 40, (1 + i) % 256, 0, 0, i⟩ :=
      ⟨by simp [InRange]; omega, by simpa [InRange] using hlen⟩
    have hadv := advance_getElem? hr
      (newlines_parens_newline (n := n) (m := m) (i := i) (by omega))
    rw [scanToken_newline hadv rfl]
    have hline : ((1 + i) % 256 + 1) % 256 = (1 + (i + 1)) % 256 := by omega
    simp only [hline]
    exact ih (i + 1) k (by omega) (by omega)

/-- From the offset `n + j` inside the run of `(`, the main loop returns one `LEFT_PAREN` for
each of the `d` bytes left, with the column counted on from `col` modulo 256. -/
theorem scanLoop_parens {n m : Nat} (hlen : n + m ≤ 65535) (ln : Nat) (d : Nat) :
    ∀ (j k col last : Nat) (toks : List Token), j + d = m → d + 1 ≤ k →
      ∃ s1, scanLoop k ⟨List.replicate n 10 ++ List.replicate m 40, ln, col, last, n + j⟩
          toks [] =
        Exec.done (s1, toks ++ (List.range d).map
          (fun i => ⟨TokenType.LEFT_PAREN, ln, (col + 1 + i) % 256, [40]⟩), []) := by
  induction d with
  | zero =>
    intro j k col last toks hj hk
    obtain ⟨k, rfl⟩ : ∃ b, k = b + 1 := ⟨k - 1, by omega⟩
    have he : isEnd ⟨List.replicate n 10 ++ List.replicate m 40, ln, col, last, n + j⟩
        = true := by
      simp [isEnd]
      omega
    refine ⟨⟨List.replicate n 10 ++ List.replicate m 40, ln, col, last, n + j⟩, ?_⟩
    simp [scanLoop, he]
  | succ d ih =>
    intro j k col last toks hj hk
    obtain ⟨k, rfl⟩ : ∃ b, k = b + 1 := ⟨k - 1, by omega⟩
    obtain ⟨k, rfl⟩ : ∃ b, k = b + 1 := ⟨k - 1, by omega⟩
    have he : isEnd ⟨List.replicate n 10 ++ List.replicate m 40, ln, col, last, n + j⟩
        = false := by
      simp [isEnd]
      omega
    have hr : InRange
        ⟨List.replicate n 10 ++ List.replicate m 40, ln, col, n + j, n + j⟩ :=
      ⟨by simp [InRange]; omega, by simpa [InRange] using hlen⟩
    have hget := newlines_parens_paren (n := n) (m := m) (i := n + j) (by omega) (by omega)
    have hadv := advance_getElem? hr hget
    have ht : scanToken (k + 1)
        ⟨List.replicate n 10 ++ List.replicate m 40, ln, col, n + j, n + j⟩ =
        Exec.done (⟨List.replicate n 10 ++ List.replicate m 40, ln, (col + 1) % 256, n + j,
            n + (j + 1)⟩,
          ⟨TokenType.LEFT_PAREN, ln, (col + 1) % 256, [40]⟩, none) := by
      rw [scanToken_paren hadv rfl, returnToken_eq]
      · have h1 : n + j + 1 - (n + j) = 1 := by omega
        simp only [h1, drop_take_one hget]
        rfl
      · show n + j ≤ n + j + 1
        omega
      · show n + j + 1 ≤ (List.replicate n 10 ++ List.replicate m 40).length
        simp
        omega
    obtain ⟨s1, h1⟩ := ih (j + 1) (k + 1) ((col + 1) % 256) (n + j)
      (toks ++ [⟨TokenType.LEFT_PAREN, ln, (col + 1) % 256, [40]⟩]) (by omega) (by omega)
    refine ⟨s1, ?_⟩
    rw [scanLoop]
    simp only [he, Bool.false_eq_true, if_false, ht]
    rw [h1, List.range_succ_eq_map, List.map_cons, List.map_map, List.append_assoc]
    have hcol : ∀ i, ((col + 1) % 256 + 1 + i) % 256 = (col + 1 + (i + 1)) % 256 := by
      intro i
      omega
    simp [Function.comp_def, hcol]

/-! ## A run of two or more digits: `scanInt` consumes the byte after it -/

/-- With `r` digits at the cursor and the byte `b`, not a digit, after them, the loop of
`scanInt`, entered on a digit, consumes the `r` digits and `b`. -/
theorem scanIntLoop_run (r : Nat) :
    ∀ (k : Nat) (s : Scanner) (next b : Nat), InRange s → isInt next = true →
      (∀ i, i < r → ∃ x, s.Source[s.currIndex + i]? = some x ∧ isInt x = true) →
      s.Source[s.currIndex + r]? = some b → isInt b = false → r + 2 ≤ k →
      scanIntLoop k s next = Exec.done
        { s with currIndex := s.currIndex + r + 1, column := (s.column + r + 1) % 256 } := by
  induction r with
  | zero =>
    intro k s next b hr hnext _ hb hnb hk
    obtain ⟨k, rfl⟩ : ∃ j, k = j + 1 + 1 := ⟨k - 2, by omega⟩
    have hadv := advance_getElem? hr hb
    simp only [scanIntLoop, hnext, if_true, hadv, hnb, Bool.false_eq_true, if_false]
  | succ r ih =>
    intro k s next b hr hnext hd hb hnb hk
    obtain ⟨k, rfl⟩ : ∃ j, k = j + 1 := ⟨k - 1, by omega⟩
    obtain ⟨x, hx, hxd⟩ := hd 0 (by omega)
    have hlt : s.currIndex < s.Source.length := (List.getElem?_eq_some_iff.mp hx).1
    have hadv := advance_getElem? hr hx
    simp only [scanIntLoop, hnext, if_true, hadv]
    rw [ih k { s with currIndex := s.currIndex + 1, column := (s.column + 1) % 256 } x b
      ⟨hlt, hr.2⟩ hxd ?_ ?_ hnb (by omega)]
    · have e1 : s.currIndex + 1 + r + 1 = s.currIndex + (r + 1) + 1 := by omega
      have e2 : ((s.column + 1) % 256 + r + 1) % 256 = (s.column + (r + 1) + 1) % 256 := by
        omega
      simp only [e1, e2]
    · intro i hi
      obtain ⟨y, hy, hyd⟩ := hd (i + 1) (by omega)
      refine ⟨y, ?_, hyd⟩
      have e : s.currIndex + 1 + i = s.currIndex + (i + 1) := by omega
      show s.Source[s.currIndex + 1 + i]? = some y
      rw [e]
      exact hy
    · have e : s.currIndex + 1 + r = s.currIndex + (r + 1) := by omega
      show s.Source[s.currIndex + 1 + r]? = some b
      rw [e]
      exact hb

/-- Wherever a run `d` of two or more digits followed by a byte `b` that is not a digit
starts a token, `scanToken` returns an `INTEGER` whose lexeme is `d` followed by `b`, and
leaves the cursor after `b`. -/
theorem scanToken_digit_run (pre d rest : List Nat) (b ln col k : Nat)
    (hd : ∀ x ∈ d, isInt x = true) (h2 : 2 ≤ d.length) (hb : isInt b = false)
    (hlen : (pre ++ (d ++ b :: rest)).length ≤ 65535) (hk : d.length + 2 ≤ k) :
    scanToken k ⟨pre ++ (d ++ b :: rest), ln, col, pre.length, pre.length⟩ = Exec.done
      (⟨pre ++ (d ++ b :: rest), ln, (col + d.length + 1) % 256, pre.length,
          pre.length + d.length + 1⟩,
        ⟨TokenType.INTEGER, ln, (col + d.length + 1) % 256, d ++ [b]⟩, none) := by
  obtain ⟨k, rfl⟩ : ∃ j, k = j + 1 := ⟨k - 1, by omega⟩
  have hlen1 : pre.length + (d.length + (rest.length + 1)) ≤ 65535 := by
    simpa using hlen
  have hdig : ∀ i, i < d.length →
      ∃ x, (pre ++ (d ++ b :: rest))[pre.length + i]? = some x ∧ isInt x = true := by
    intro i hi
    refine ⟨d[i], ?_, hd _ (List.getElem_mem hi)⟩
    rw [List.getElem?_append_right (by omega), Nat.add_sub_cancel_left,
      List.getElem?_append_left hi, List.getElem?_eq_getElem hi]
  have hbyte : (pre ++ (d ++ b :: rest))[pre.length + d.length]? = some b := by
    rw [List.getElem?_append_right (by omega), Nat.add_sub_cancel_left,
      List.getElem?_append_right (Nat.le_refl _), Nat.sub_self, List.getElem?_cons_zero]
  have hr : InRange ⟨pre ++ (d ++ b :: rest), ln, col, pre.length, pre.length⟩ := by
    refine ⟨?_, hlen⟩
    show pre.length ≤ (pre ++ (d ++ b :: rest)).length
    simp
  obtain ⟨x0, hx0, hx0d⟩ := hdig 0 (by omega)
  obtain ⟨x1, hx1, hx1d⟩ := hdig 1 (by omega)
  have hadv := advance_getElem? hr hx0
  have hp : peek ⟨pre ++ (d ++ b :: rest), ln, (col + 1) % 256, pre.length,
      pre.length + 1⟩ = Exec.done x1 := by
    unfold peek
    simp only [hx1]
  have hr1 : InRange ⟨pre ++ (d ++ b :: rest), ln, (col + 1) % 256, pre.length,
      pre.length + 1⟩ := by
    refine ⟨?_, hlen⟩
    show pre.length + 1 ≤ (pre ++ (d ++ b :: rest)).length
    simp
    omega
  have hloop := scanIntLoop_run (d.length - 1) k
    ⟨pre ++ (d ++ b :: rest), ln, (col + 1) % 256, pre.length, pre.length + 1⟩ x1 b hr1 hx1d
    (by
      intro i hi
      obtain ⟨y, hy, hyd⟩ := hdig (i + 1) (by omega)
      refine ⟨y, ?_, hyd⟩
      have e : pre.length + 1 + i = pre.length + (i + 1) := by omega
      show (pre ++ (d ++ b :: rest))[pre.length + 1 + i]? = some y
      rw [e]
      exact hy)
    (by
      have e : pre.length + 1 + (d.length - 1) = pre.length + d.length := by omega
      show (pre ++ (d ++ b :: rest))[pre.length + 1 + (d.length - 1)]? = some b
      rw [e]
      exact hbyte)
    hb (by omega)
  have e1 : pre.length + 1 + (d.length - 1) + 1 = pre.length + d.length + 1 := by omega
  have e2 : ((col + 1) % 256 + (d.length - 1) + 1) % 256 = (col + d.length + 1) % 256 := by
    omega
  simp only [e1, e2] at hloop
  have hint : scanInt k ⟨pre ++ (d ++ b :: rest), ln, (col + 1) % 256, pre.length,
      pre.length + 1⟩ = Exec.done
      (⟨pre ++ (d ++ b :: rest), ln, (col + d.length + 1) % 256, pre.length,
          pre.length + d.length + 1⟩,
        ⟨TokenType.INTEGER, ln, (col + d.length + 1) % 256, d ++ [b]⟩, none) := by
    unfold scanInt
    simp only [hp, hloop]
    rw [returnToken_eq]
    · have e3 : pre.length + d.length + 1 - pre.length = d.length + 1 := by omega
      simp only [e3, List.drop_left]
      rw [List.take_append]
      rfl
    · show pre.length ≤ pre.length + d.length + 1
      omega
    · show pre.length + d.length + 1 ≤ (pre ++ (d ++ b :: rest)).length
      simp
      omega
  rw [scanToken_digit hadv hx0d]
  exact hint

/-! ## Runs on given sources -/

/-- A run that ends within the budget `k` ends the same way within every budget `n + k`. -/
theorem scanSource_add {k : Nat} {src : List Nat} {r : Exec ScanResult}
    (h : scanSource k src = r) (hr : r ≠ Exec.fuel) (n : Nat) : scanSource (n + k) src = r := by
  rw [scanSource_mono (Nat.le_add_left k n) src (h ▸ hr), h]

/-! ## The claims -/

/-- C1: `Scan` is claimed never to panic.  It does, with any budget of 3 steps or more, on
each of the one-byte sources `x`, `7`, tab and double quote: after the last byte the code
reads `Source[1]`, through `peek` in `scanIdentifier`, `scanInt` and `scanString` and through
`advance` in `scanToken`. -/
theorem Scan_panics_at_end_of_source (n : Nat) :
    scanSource (n + 3) [120] = Exec.panic ∧ scanSource (n + 3) [55] = Exec.panic ∧
      scanSource (n + 3) [9] = Exec.panic ∧ scanSource (n + 3) [34] = Exec.panic :=
  ⟨scanSource_add (by decide) (by simp) n, scanSource_add (by decide) (by simp) n,
    scanSource_add (by decide) (by simp) n, scanSource_add (by decide) (by simp) n⟩

/-- C2: whenever `Scan` returns, the token sequence it returns is not empty and its last
element has kind `EOF`. -/
theorem Scan_tokens_end_in_EOF (n : Nat) (s : Scanner) (r : ScanResult)
    (h : Scan n s = Exec.done r) :
    r.tokens ≠ [] ∧ ∃ t, r.tokens.getLast? = some t ∧ t.Typ = TokenType.EOF := by
  unfold Scan at h
  split at h
  · rename_i s1 tokens errors _
    simp only [Exec.done.injEq] at h
    subst h
    refine ⟨by simp, eofToken, by simp, rfl⟩
  · exact absurd h (by simp)
  · exact absurd h (by simp)

/-- C2 at the source `(if)`, on which `Scan` returns four tokens. -/
theorem Scan_tokens_end_in_EOF_witness :
    Scan 6 (newScanner [40, 105, 102, 41]) = Exec.done
        ⟨[⟨TokenType.LEFT_PAREN, 1, 1, [40]⟩, ⟨TokenType.IF, 1, 3, [105, 102]⟩,
          ⟨TokenType.RIGHT_PAREN, 1, 4, [41]⟩, eofToken], none, []⟩ ∧
      ([⟨TokenType.LEFT_PAREN, 1, 1, [40]⟩, ⟨TokenType.IF, 1, 3, [105, 102]⟩,
          ⟨TokenType.RIGHT_PAREN, 1, 4, [41]⟩, eofToken] ≠ [] ∧
        ∃ t, List.getLast? [⟨TokenType.LEFT_PAREN, 1, 1, [40]⟩,
          ⟨TokenType.IF, 1, 3, [105, 102]⟩, ⟨TokenType.RIGHT_PAREN, 1, 4, [41]⟩,
          eofToken] = some t ∧ t.Typ = TokenType.EOF) :=
  ⟨by decide, Scan_tokens_end_in_EOF 6 (newScanner [40, 105, 102, 41])
    ⟨[⟨TokenType.LEFT_PAREN, 1, 1, [40]⟩, ⟨TokenType.IF, 1, 3, [105, 102]⟩,
      ⟨TokenType.RIGHT_PAREN, 1, 4, [41]⟩, eofToken], none, []⟩ (by decide)⟩

/-- C3, as stated, fails: on the source of 65536 letters `a` no budget makes `Scan` end.
In the loop of `scanIdentifier` the cursor goes from 65535 back to 0 and every `peek` finds
a letter. -/
theorem Scan_wrapped_cursor_never_ends :
    ¬ ∃ n, scanSource n (List.replicate 65536 97) ≠ Exec.fuel := by
  rintro ⟨n, hn⟩
  apply hn
  unfold scanSource Scan
  rw [scanLoop_replicate n _ [] [] rfl (by show 0 < 65536; omega)]

/-- C3, amended: on every source of at most 65535 bytes `Scan` ends after finitely many
steps.  The budget `len + 2` is enough, and with every larger budget the run ends the same
way. -/
theorem Scan_terminates (src : List Nat) (h : src.length ≤ 65535) :
    scanSource (src.length + 2) src ≠ Exec.fuel ∧
      ∀ m, src.length + 2 ≤ m → scanSource m src = scanSource (src.length + 2) src := by
  have h0 : scanSource (src.length + 2) src ≠ Exec.fuel := Scan_ne_fuel (newScanner src) h
  exact ⟨h0, fun m hm => scanSource_mono hm src h0⟩

/-- C3, amended, at the source `(a | b)` of 7 bytes. -/
theorem Scan_terminates_witness :
    [40, 97, 32, 124, 32, 98, 41].length ≤ 65535 ∧
      (scanSource ([40, 97, 32, 124, 32, 98, 41].length + 2) [40, 97, 32, 124, 32, 98, 41]
          ≠ Exec.fuel ∧
        ∀ m, [40, 97, 32, 124, 32, 98, 41].length + 2 ≤ m →
          scanSource m [40, 97, 32, 124, 32, 98, 41] =
            scanSource ([40, 97, 32, 124, 32, 98, 41].length + 2)
              [40, 97, 32, 124, 32, 98, 41]) :=
  ⟨by decide, Scan_terminates [40, 97, 32, 124, 32, 98, 41] (by decide)⟩

/-- C4: a source of white space only is claimed to give `[EOF]` and no error.  The empty
source does.  Every other source of white space only, of at most 65535 bytes, ends in a
panic with any budget of `len + 2` steps or more: `scanToken` calls itself after each byte
of white space and, after the last one, `advance` reads `Source[len]`. -/
theorem Scan_whitespace_only (src : List Nat)
    (hws : ∀ b ∈ src, b = 32 ∨ b = 9 ∨ b = 13 ∨ b = 10) (hlen : src.length ≤ 65535)
    (n : Nat) :
    scanSource (n + (src.length + 2)) src =
      if src = [] then Exec.done ⟨[eofToken], none, []⟩ else Exec.panic := by
  by_cases he : src = []
  · subst he
    rw [if_pos rfl]
    exact scanSource_add (by decide) (by simp) n
  · rw [if_neg he]
    exact scanSource_add (scanSource_whitespace src he hws hlen) (by simp) n

/-- C4 at the source of one space, with the budget 3. -/
theorem Scan_whitespace_only_witness :
    (∀ b ∈ [32], b = 32 ∨ b = 9 ∨ b = 13 ∨ b = 10) ∧ [32].length ≤ 65535 ∧
      scanSource (0 + ([32].length + 2)) [32] =
        if [32] = ([] : List Nat) then Exec.done ⟨[eofToken], none, []⟩ else Exec.panic :=
  ⟨by decide, by decide, Scan_whitespace_only [32] (by decide) (by decide) 0⟩

/-- C5: a source `d` of digits only is claimed to give `INTEGER d, EOF`.  Every such source,
not empty and of at most 65535 bytes, ends in a panic with any budget of `len + 2` steps or
more: after the last digit `scanInt` reads `Source[len]`, through `peek` when `d` is one
digit and through `advance` otherwise. -/
theorem Scan_digits_only (d : List Nat) (hne : d ≠ []) (hd : ∀ b ∈ d, isInt b = true)
    (hlen : d.length ≤ 65535) (n : Nat) : scanSource (n + (d.length + 2)) d = Exec.panic :=
  scanSource_add (scanSource_digits d hne hd hlen) (by simp) n

/-- C5 at the source `42`, with the budget 4. -/
theorem Scan_digits_only_witness :
    [52, 50] ≠ [] ∧ (∀ b ∈ [52, 50], isInt b = true) ∧ [52, 50].length ≤ 65535 ∧
      scanSource (0 + ([52, 50].length + 2)) [52, 50] = Exec.panic :=
  ⟨by decide, by decide, by decide,
    Scan_digits_only [52, 50] (by decide) (by decide) (by decide) 0⟩

/-- C6: a source `w` of letters only is claimed to give one identifier or keyword token and
`EOF`.  Every such source, not empty and of at most 65535 bytes, keyword or not, ends in a
panic with any budget of `len + 2` steps or more: after the last letter `scanIdentifier`
calls `peek`, which reads `Source[len]`. -/
theorem Scan_letters_only (w : List Nat) (hne : w ≠ []) (hw : ∀ b ∈ w, isAlpha b = true)
    (hlen : w.length ≤ 65535) (n : Nat) : scanSource (n + (w.length + 2)) w = Exec.panic :=
  scanSource_add (scanSource_letters w hne hw hlen) (by simp) n

/-- C6 at the sources `foo` and `if`. -/
theorem Scan_letters_only_witness :
    ([102, 111, 111] ≠ [] ∧ (∀ b ∈ [102, 111, 111], isAlpha b = true) ∧
        [102, 111, 111].length ≤ 65535 ∧
        scanSource (0 + ([102, 111, 111].length + 2)) [102, 111, 111] = Exec.panic) ∧
      ([105, 102] ≠ [] ∧ (∀ b ∈ [105, 102], isAlpha b = true) ∧
        [105, 102].length ≤ 65535 ∧
        scanSource (0 + ([105, 102].length + 2)) [105, 102] = Exec.panic) :=
  ⟨⟨by decide, by decide, by decide,
      Scan_letters_only [102, 111, 111] (by decide) (by decide) (by decide) 0⟩,
    ⟨by decide, by decide, by decide,
      Scan_letters_only [105, 102] (by decide) (by decide) (by decide) 0⟩⟩

/-- C7: what `Scan` returns on `(a | b)`, with any budget of 7 steps or more.  The six kinds
are the claimed ones and there is no error, but the lexeme of `PIPE` is ` |` and the lexeme
of the second `IDENTIFIER` is ` b`: the skipped space is part of the lexeme, because
`lastIndex` is set in `Scan` only and `scanToken` calls itself after the space. -/
theorem Scan_paren_a_pipe_b (n : Nat) :
    scanSource (n + 7) [40, 97, 32, 124, 32, 98, 41] = Exec.done
      ⟨[⟨TokenType.LEFT_PAREN, 1, 1, [40]⟩, ⟨TokenType.IDENTIFIER, 1, 2, [97]⟩,
        ⟨TokenType.PIPE, 1, 4, [32, 124]⟩, ⟨TokenType.IDENTIFIER, 1, 6, [32, 98]⟩,
        ⟨TokenType.RIGHT_PAREN, 1, 7, [41]⟩, eofToken], none, []⟩ :=
  scanSource_add (by decide) (by simp) n

/-- C8: a source that opens a string literal and never closes it is claimed to give the
error `unterminated string literal`.  Every source of at most 65535 bytes that is a double
quote followed by bytes other than the double quote ends in a panic with any budget of
`len + 2` steps or more, and records nothing: the loop of `scanString` calls `peek`, which
reads `Source[len]`, before it asks `isEnd`. -/
theorem Scan_unterminated_string (rest : List Nat) (hq : ∀ b ∈ rest, b ≠ 34)
    (hlen : rest.length + 1 ≤ 65535) (n : Nat) :
    scanSource (n + (rest.length + 3)) (34 :: rest) = Exec.panic :=
  scanSource_add (scanSource_open_quote rest hq hlen) (by simp) n

/-- C8 at the 13-byte source of a double quote followed by `unterminated`. -/
theorem Scan_unterminated_string_witness :
    (∀ b ∈ [117, 110, 116, 101, 114, 109, 105, 110, 97, 116, 101, 100], b ≠ 34) ∧
      [117, 110, 116, 101, 114, 109, 105, 110, 97, 116, 101, 100].length + 1 ≤ 65535 ∧
      scanSource (0 + ([117, 110, 116, 101, 114, 109, 105, 110, 97, 116, 101, 100].length + 3))
        (34 :: [117, 110, 116, 101, 114, 109, 105, 110, 97, 116, 101, 100]) = Exec.panic :=
  ⟨by decide, by decide,
    Scan_unterminated_string [117, 110, 116, 101, 114, 109, 105, 110, 97, 116, 101, 100]
      (by decide) (by decide) 0⟩

/-- C9: the source `3 # 4` is claimed to give `INTEGER 3, INTEGER 4, EOF` and one error.
With any budget of 5 steps or more the run ends in a panic at the final `4`; followed by
`(`, the same source gives the error for `#` and the scan goes on. -/
theorem Scan_unexpected_character (n : Nat) :
    scanSource (n + 5) [51, 32, 35, 32, 52] = Exec.panic ∧
      scanSource (n + 6) [51, 32, 35, 32, 52, 40] = Exec.done
        ⟨[⟨TokenType.INTEGER, 1, 1, [51]⟩, ⟨TokenType.INTEGER, 1, 5, [32, 52]⟩,
          ⟨TokenType.LEFT_PAREN, 1, 6, [40]⟩, eofToken], none,
          [⟨1, "Unexpected character #"⟩]⟩ :=
  ⟨scanSource_add (by decide) (by simp) n, scanSource_add (by decide) (by simp) n⟩

/-- C10: the source of a newline followed by `a` is claimed to give an `IDENTIFIER` with
line 2.  With any budget of 4 steps or more the run ends in a panic; followed by `(`, the
same source gives the `IDENTIFIER` with line 2. -/
theorem Scan_newline_letter (n : Nat) :
    scanSource (n + 4) [10, 97] = Exec.panic ∧
      scanSource (n + 4) [10, 97, 40] = Exec.done
        ⟨[⟨TokenType.IDENTIFIER, 2, 1, [10, 97]⟩, ⟨TokenType.LEFT_PAREN, 2, 2, [40]⟩,
          eofToken], none, []⟩ :=
  ⟨scanSource_add (by decide) (by simp) n, scanSource_add (by decide) (by simp) n⟩

/-- C11: the text rebuilt from a literal token is claimed to be the digit run, or the span
from the opening to the closing quote.  With any budget of 6 steps or more: on `42)` the
`INTEGER` has the lexeme `42)`, on ` 7(` it has the lexeme ` 7`, and on a space followed by
`"ab"` the `STRING` has the lexeme `"ab`, the opening quote in it and the last letter with
it, so that the text rebuilt with two quotes is not the literal. -/
theorem Scan_literal_lexemes (n : Nat) :
    scanSource (n + 6) [52, 50, 41] = Exec.done
        ⟨[⟨TokenType.INTEGER, 1, 3, [52, 50, 41]⟩, eofToken], none, []⟩ ∧
      scanSource (n + 6) [32, 55, 40] = Exec.done
        ⟨[⟨TokenType.INTEGER, 1, 2, [32, 55]⟩, ⟨TokenType.LEFT_PAREN, 1, 3, [40]⟩,
          eofToken], none, []⟩ ∧
      scanSource (n + 6) [32, 34, 97, 98, 34] = Exec.done
        ⟨[⟨TokenType.STRING, 1, 5, [34, 97, 98]⟩, eofToken], none, []⟩ :=
  ⟨scanSource_add (by decide) (by simp) n, scanSource_add (by decide) (by simp) n,
    scanSource_add (by decide) (by simp) n⟩

/-- C12, as stated, fails: on the source of two double quotes `Scan` returns a `STRING`
token, not the final `EOF`, whose lexeme is empty. -/
theorem Scan_empty_string_lexeme :
    scanSource 3 [34, 34] = Exec.done
      ⟨[⟨TokenType.STRING, 1, 2, []⟩, eofToken], none, []⟩ := by
  decide

/-- C12, amended: for every source, the lexeme of every token `Scan` returns before the
final `EOF` is a run of consecutive bytes of the source, and it is not empty unless the
token is a `STRING`. -/
theorem Scan_lexemes_from_source (n : Nat) (src : List Nat) (r : ScanResult)
    (h : scanSource n src = Exec.done r) :
    ∀ t ∈ r.tokens.dropLast,
      List.IsInfix t.Lexeme src ∧ (t.Typ ≠ TokenType.STRING → t.Lexeme ≠ []) := by
  have hlen : src.length ≤ 65535 := Scan_done_length (s := newScanner src) h
  unfold scanSource Scan at h
  split at h
  · rename_i s1 tokens errors hl
    simp only [Exec.done.injEq] at h
    subst h
    simp only [List.dropLast_concat]
    exact scanLoop_lexemes (s := ⟨src, 1, 0, 0, 0⟩) ⟨Nat.zero_le _, hlen⟩ hl
  · exact absurd h (by simp)
  · exact absurd h (by simp)

/-- C12, amended, at the source `x "y"`: an `IDENTIFIER` and a `STRING` before `EOF`. -/
theorem Scan_lexemes_from_source_witness :
    scanSource 6 [120, 32, 34, 121, 34] = Exec.done
        ⟨[⟨TokenType.IDENTIFIER, 1, 1, [120]⟩, ⟨TokenType.STRING, 1, 5, [34, 121]⟩,
          eofToken], none, []⟩ ∧
      ∀ t ∈ List.dropLast [⟨TokenType.IDENTIFIER, 1, 1, [120]⟩,
          ⟨TokenType.STRING, 1, 5, [34, 121]⟩, eofToken],
        List.IsInfix t.Lexeme [120, 32, 34, 121, 34] ∧
          (t.Typ ≠ TokenType.STRING → t.Lexeme ≠ []) :=
  ⟨by decide, Scan_lexemes_from_source 6 [120, 32, 34, 121, 34]
    ⟨[⟨TokenType.IDENTIFIER, 1, 1, [120]⟩, ⟨TokenType.STRING, 1, 5, [34, 121]⟩,
      eofToken], none, []⟩ (by decide)⟩

/-- C13: whenever `Scan` returns, the error value it returns is `nil`, whatever the list
`errors` holds. -/
theorem Scan_returns_nil (n : Nat) (s : Scanner) (r : ScanResult)
    (h : Scan n s = Exec.done r) : r.err = none := by
  unfold Scan at h
  split at h
  · simp only [Exec.done.injEq] at h
    subst h
    rfl
  · exact absurd h (by simp)
  · exact absurd h (by simp)

/-- C13 at the source `#?#`, on which `Scan` records two errors. -/
theorem Scan_returns_nil_witness :
    Scan 4 (newScanner [35, 63, 35]) = Exec.done
        ⟨[⟨TokenType.QUESTION_MARK, 1, 2, [63]⟩, eofToken], none,
          [⟨1, "Unexpected character #"⟩, ⟨1, "Unexpected character #"⟩]⟩ ∧
      (ScanResult.mk [⟨TokenType.QUESTION_MARK, 1, 2, [63]⟩, eofToken] none
          [⟨1, "Unexpected character #"⟩, ⟨1, "Unexpected character #"⟩]).err = none :=
  ⟨by decide, Scan_returns_nil 4 (newScanner [35, 63, 35])
    ⟨[⟨TokenType.QUESTION_MARK, 1, 2, [63]⟩, eofToken], none,
      [⟨1, "Unexpected character #"⟩, ⟨1, "Unexpected character #"⟩]⟩ (by decide)⟩

/-- C14: on `12(` the scan is claimed to give `INTEGER 12, LEFT_PAREN, EOF`.  With any budget
of 5 steps or more it gives `INTEGER` with the lexeme `12(` and `EOF`: the byte after the
digits is consumed by `scanInt` and is in the lexeme; on `1(`, with one digit, it is not. -/
theorem Scan_integer_then_paren (n : Nat) :
    scanSource (n + 5) [49, 50, 40] = Exec.done
        ⟨[⟨TokenType.INTEGER, 1, 3, [49, 50, 40]⟩, eofToken], none, []⟩ ∧
      scanSource (n + 5) [49, 40] = Exec.done
        ⟨[⟨TokenType.INTEGER, 1, 1, [49]⟩, ⟨TokenType.LEFT_PAREN, 1, 2, [40]⟩,
          eofToken], none, []⟩ :=
  ⟨scanSource_add (by decide) (by simp) n, scanSource_add (by decide) (by simp) n⟩

/-- C15: the lexeme of a `STRING` is claimed to be the bytes between the two quotes
whatever precedes the literal.  With any budget of 9 steps or more: on `"hi"` it is `hi`, on
a newline followed by `"hi"` it is `"hi`, and on `(`, two spaces and `"hi"` it is a space
followed by `"hi`. -/
theorem Scan_string_after_whitespace (n : Nat) :
    scanSource (n + 9) [34, 104, 105, 34] = Exec.done
        ⟨[⟨TokenType.STRING, 1, 4, [104, 105]⟩, eofToken], none, []⟩ ∧
      scanSource (n + 9) [10, 34, 104, 105, 34] = Exec.done
        ⟨[⟨TokenType.STRING, 2, 4, [34, 104, 105]⟩, eofToken], none, []⟩ ∧
      scanSource (n + 9) [40, 32, 32, 34, 104, 105, 34] = Exec.done
        ⟨[⟨TokenType.LEFT_PAREN, 1, 1, [40]⟩,
          ⟨TokenType.STRING, 1, 7, [32, 34, 104, 105]⟩, eofToken], none, []⟩ :=
  ⟨scanSource_add (by decide) (by simp) n, scanSource_add (by decide) (by simp) n,
    scanSource_add (by decide) (by simp) n⟩

/-- C16: the kind of a letter run is claimed to depend on the run only.  With any budget of
6 steps or more: `if(` gives `IF`, and a space or a newline followed by `if(` gives
`IDENTIFIER`, with the skipped byte in the lexeme that `keywords` is asked for. -/
theorem Scan_keyword_after_whitespace (n : Nat) :
    scanSource (n + 6) [105, 102, 40] = Exec.done
        ⟨[⟨TokenType.IF, 1, 2, [105, 102]⟩, ⟨TokenType.LEFT_PAREN, 1, 3, [40]⟩,
          eofToken], none, []⟩ ∧
      scanSource (n + 6) [32, 105, 102, 40] = Exec.done
        ⟨[⟨TokenType.IDENTIFIER, 1, 3, [32, 105, 102]⟩,
          ⟨TokenType.LEFT_PAREN, 1, 4, [40]⟩, eofToken], none, []⟩ ∧
      scanSource (n + 6) [10, 105, 102, 40] = Exec.done
        ⟨[⟨TokenType.IDENTIFIER, 2, 2, [10, 105, 102]⟩,
          ⟨TokenType.LEFT_PAREN, 2, 3, [40]⟩, eofToken], none, []⟩ :=
  ⟨scanSource_add (by decide) (by simp) n, scanSource_add (by decide) (by simp) n,
    scanSource_add (by decide) (by simp) n⟩

/-- C17, as stated, fails: on the source of 65536 bytes `#`, after 65536 rounds of the main
loop the cursor is back at 0, below the start 65535 of the last token. -/
theorem cursor_wraps_below_token_start :
    ∃ s, scanRounds 1 65536 ⟨List.replicate 65536 35, 1, 0, 0, 0⟩ = Exec.done s ∧
      s.currIndex < s.lastIndex := by
  obtain ⟨s1, h1, _, h3, h4⟩ := scanRounds_replicate 65536
    ⟨List.replicate 65536 35, 1, 0, 0, 0⟩ (by omega) rfl (by show 0 + 65536 ≤ 65536; omega)
  refine ⟨s1, h1, ?_⟩
  rw [h3, h4]
  show (0 + 65536) % 65536 < 0 + 65536 - 1
  omega

/-- C17, amended: for every source of at most 65535 bytes, in every state the scan is in
after one of its steps (the entry of the main loop, `s.lastIndex = s.currIndex`, a call of
`advance` that returns, the line bookkeeping), `lastIndex <= currIndex <= len(Source)`. -/
theorem cursor_invariant (src : List Nat) (s : Scanner) (hlen : src.length ≤ 65535)
    (h : Reach src s) :
    s.Source = src ∧ s.lastIndex ≤ s.currIndex ∧ s.currIndex ≤ s.Source.length := by
  induction h with
  | start => exact ⟨rfl, Nat.le_refl _, Nat.zero_le _⟩
  | mark _ _ ih => exact ⟨ih.1, Nat.le_refl _, ih.2.2⟩
  | step _ hadv ih =>
    obtain ⟨hs, hl, hc⟩ := ih
    obtain ⟨_, ⟨a, b, c, d⟩, _⟩ := advance_later ⟨hc, hs ▸ hlen⟩ hadv
    exact ⟨a.trans hs, by omega, d⟩
  | newline _ ih => exact ih

/-- C17, amended, at the source `(` and the state after its only byte is consumed. -/
theorem cursor_invariant_witness :
    [40].length ≤ 65535 ∧ Reach [40] ⟨[40], 1, 1, 0, 1⟩ ∧
      ((⟨[40], 1, 1, 0, 1⟩ : Scanner).Source = [40] ∧
        (⟨[40], 1, 1, 0, 1⟩ : Scanner).lastIndex ≤ (⟨[40], 1, 1, 0, 1⟩ : Scanner).currIndex ∧
        (⟨[40], 1, 1, 0, 1⟩ : Scanner).currIndex ≤
          (⟨[40], 1, 1, 0, 1⟩ : Scanner).Source.length) :=
  ⟨by decide, Reach.step (Reach.mark Reach.start rfl) rfl,
    cursor_invariant [40] ⟨[40], 1, 1, 0, 1⟩ (by decide)
      (Reach.step (Reach.mark Reach.start rfl) rfl)⟩

/-- C18: for every `n` and every `m >= 1` with `n + m <= 65535`, on the source of `n`
newlines followed by `m` bytes `(`, with any budget of `n + m + 2` steps or more, `Scan`
returns `m` tokens followed by `EOF` and records no error; each of the `m` tokens is a
`LEFT_PAREN` with line `(1 + n) mod 256`, and the `k`-th of them (`k = 1..m`, here at the
index `k - 1`) has column `k mod 256`. -/
theorem Scan_newlines_parens (n m : Nat) (hm : 1 ≤ m) (hlen : n + m ≤ 65535) :
    ∃ toks : List Token,
      (∀ j, scanSource (j + (n + m + 2)) (List.replicate n 10 ++ List.replicate m 40) =
        Exec.done ⟨toks ++ [eofToken], none, []⟩) ∧
      toks.length = m ∧
      ∀ k, k < m → ∃ t, toks[k]? = some t ∧ t.Typ = TokenType.LEFT_PAREN ∧
        t.Line = (1 + n) % 256 ∧ t.Column = (k + 1) % 256 := by
  refine ⟨⟨TokenType.LEFT_PAREN, (1 + n) % 256, 1,
      (List.replicate n 10 ++ List.replicate m 40).take (n + 1)⟩ ::
    (List.range (m - 1)).map
      (fun i => ⟨TokenType.LEFT_PAREN, (1 + n) % 256, (1 + 1 + i) % 256, [40]⟩), ?_, ?_, ?_⟩
  · intro j
    refine scanSource_add ?_ (by simp) j
    have he : isEnd ⟨List.replicate n 10 ++ List.replicate m 40, 1, 0, 0, 0⟩ = false := by
      simp [isEnd]
      omega
    have ht := scanToken_newlines hm hlen n 0 (n + m + 1) (by omega) (by omega)
    obtain ⟨s1, h1⟩ := scanLoop_parens hlen ((1 + n) % 256) (m - 1) 1 (n + m + 1) 1 0
      [⟨TokenType.LEFT_PAREN, (1 + n) % 256, 1,
        (List.replicate n 10 ++ List.replicate m 40).take (n + 1)⟩] (by omega) (by omega)
    have hl : scanLoop (n + m + 1 + 1)
        ⟨List.replicate n 10 ++ List.replicate m 40, 1, 0, 0, 0⟩ [] [] = Exec.done
        (s1, [⟨TokenType.LEFT_PAREN, (1 + n) % 256, 1,
            (List.replicate n 10 ++ List.replicate m 40).take (n + 1)⟩] ++
          (List.range (m - 1)).map
            (fun i => ⟨TokenType.LEFT_PAREN, (1 + n) % 256, (1 + 1 + i) % 256, [40]⟩),
          []) := by
      rw [scanLoop]
      simp only [he, Bool.false_eq_true, if_false]
      have ht1 : scanToken (n + m + 1)
          ⟨List.replicate n 10 ++ List.replicate m 40, 1, 0, 0, 0⟩ = Exec.done
          (⟨List.replicate n 10 ++ List.replicate m 40, (1 + n) % 256, 1, 0, n + 1⟩,
            ⟨TokenType.LEFT_PAREN, (1 + n) % 256, 1,
              (List.replicate n 10 ++ List.replicate m 40).take (n + 1)⟩, none) := ht
      rw [ht1]
      exact h1
    unfold scanSource Scan newScanner
    simp only [hl]
    rfl
  · simp
    omega
  · intro k hk
    cases k with
    | zero =>
      exact ⟨⟨TokenType.LEFT_PAREN, (1 + n) % 256, 1,
        (List.replicate n 10 ++ List.replicate m 40).take (n + 1)⟩, by simp, rfl, rfl, rfl⟩
    | succ k =>
      refine ⟨⟨TokenType.LEFT_PAREN, (1 + n) % 256, (1 + 1 + k) % 256, [40]⟩, ?_, rfl, rfl, ?_⟩
      · rw [List.getElem?_cons_succ, List.getElem?_map,
          List.getElem?_range (by omega : k < m - 1)]
        rfl
      · show (1 + 1 + k) % 256 = (k + 1 + 1) % 256
        omega

/-- C18 at one newline followed by two `(`: both tokens on line 2, columns 1 and 2. -/
theorem Scan_newlines_parens_witness :
    1 ≤ 2 ∧ 1 + 2 ≤ 65535 ∧
      ∃ toks : List Token,
        (∀ j, scanSource (j + (1 + 2 + 2)) (List.replicate 1 10 ++ List.replicate 2 40) =
          Exec.done ⟨toks ++ [eofToken], none, []⟩) ∧
        toks.length = 2 ∧
        ∀ k, k < 2 → ∃ t, toks[k]? = some t ∧ t.Typ = TokenType.LEFT_PAREN ∧
          t.Line = (1 + 1) % 256 ∧ t.Column = (k + 1) % 256 :=
  ⟨by decide, by decide, Scan_newlines_parens 1 2 (by decide) (by decide)⟩

/-- C19: for every source of at most 65535 bytes that has no double quote and only bytes
`scanToken` has a case for (the punctuation, white space, digits, letters), if `Scan`
returns then the list `errors` is empty and the lexemes of the returned tokens, put end to
end in order, are the source. -/
theorem Scan_lexemes_tile (n : Nat) (src : List Nat) (r : ScanResult)
    (hlen : src.length ≤ 65535)
    (hb : ∀ b ∈ src, b = 124 ∨ b = 40 ∨ b = 41 ∨ b = 63 ∨ b = 33 ∨ b = 58 ∨ b = 32 ∨
      b = 9 ∨ b = 13 ∨ b = 10 ∨ isInt b = true ∨ isAlpha b = true)
    (h : scanSource n src = Exec.done r) :
    r.errors = [] ∧ (r.tokens.map Token.Lexeme).flatten = src := by
  unfold scanSource Scan at h
  split at h
  · rename_i s1 tokens errors hl
    simp only [Exec.done.injEq] at h
    subst h
    obtain ⟨he, hf⟩ := scanLoop_tiles (s := ⟨src, 1, 0, 0, 0⟩) ⟨Nat.zero_le _, hlen⟩ rfl hb hl
    refine ⟨he, ?_⟩
    have hf1 : (tokens.map Token.Lexeme).flatten = src := hf
    simp [hf1, eofToken]
  · exact absurd h (by simp)
  · exact absurd h (by simp)

/-- C19 at the source `(a | b)`. -/
theorem Scan_lexemes_tile_witness :
    [40, 97, 32, 124, 32, 98, 41].length ≤ 65535 ∧
      (∀ b ∈ [40, 97, 32, 124, 32, 98, 41], b = 124 ∨ b = 40 ∨ b = 41 ∨ b = 63 ∨ b = 33 ∨
        b = 58 ∨ b = 32 ∨ b = 9 ∨ b = 13 ∨ b = 10 ∨ isInt b = true ∨ isAlpha b = true) ∧
      scanSource 7 [40, 97, 32, 124, 32, 98, 41] = Exec.done
        ⟨[⟨TokenType.LEFT_PAREN, 1, 1, [40]⟩, ⟨TokenType.IDENTIFIER, 1, 2, [97]⟩,
          ⟨TokenType.PIPE, 1, 4, [32, 124]⟩, ⟨TokenType.IDENTIFIER, 1, 6, [32, 98]⟩,
          ⟨TokenType.RIGHT_PAREN, 1, 7, [41]⟩, eofToken], none, []⟩ ∧
      (([] : List ParseError) = [] ∧
        (List.map Token.Lexeme [⟨TokenType.LEFT_PAREN, 1, 1, [40]⟩,
          ⟨TokenType.IDENTIFIER, 1, 2, [97]⟩, ⟨TokenType.PIPE, 1, 4, [32, 124]⟩,
          ⟨TokenType.IDENTIFIER, 1, 6, [32, 98]⟩, ⟨TokenType.RIGHT_PAREN, 1, 7, [41]⟩,
          eofToken]).flatten = [40, 97, 32, 124, 32, 98, 41]) :=
  ⟨by decide, by decide, by decide,
    Scan_lexemes_tile 7 [40, 97, 32, 124, 32, 98, 41]
      ⟨[⟨TokenType.LEFT_PAREN, 1, 1, [40]⟩, ⟨TokenType.IDENTIFIER, 1, 2, [97]⟩,
        ⟨TokenType.PIPE, 1, 4, [32, 124]⟩, ⟨TokenType.IDENTIFIER, 1, 6, [32, 98]⟩,
        ⟨TokenType.RIGHT_PAREN, 1, 7, [41]⟩, eofToken], none, []⟩
      (by decide) (by decide) (by decide)⟩

/-- C20: the branch `if s.isEnd()` of `scanString` is never taken.  For every scanner state
and budget: when `scanString` returns, it returns no error; an error that `scanToken` returns
does not have the cause `unterminated string literal.`; and when `Scan` returns, no entry of
`errors` has that cause. -/
theorem Scan_never_unterminated (n : Nat) (s : Scanner) :
    (∀ s1 tok e, scanString n s = Exec.done (s1, tok, e) → e = none) ∧
      (∀ s1 tok cause, scanToken n s = Exec.done (s1, tok, some cause) →
        cause ≠ "unterminated string literal.") ∧
      (∀ r, Scan n s = Exec.done r →
        ∀ x ∈ r.errors, x.Cause ≠ "unterminated string literal.") := by
  refine ⟨fun s1 tok e h => (scanString_source h).2.2.1, fun s1 tok cause h => ?_,
    fun r h => ?_⟩
  · rcases (scanToken_source h).2.2 with h1 | ⟨c, h1⟩
    · exact absurd h1 (by simp)
    · simp only [Option.some.injEq] at h1
      exact h1 ▸ unexpectedCharacter_ne c
  · unfold Scan at h
    split at h
    · rename_i s1 tokens errors hl
      simp only [Exec.done.injEq] at h
      subst h
      intro x hx
      rcases (scanLoop_source (by show 0 < 65536; omega) hl).2.2.2 x hx with h1 | ⟨c, h1⟩
      · exact absurd h1 (List.not_mem_nil x)
      · exact h1 ▸ unexpectedCharacter_ne c
    · exact absurd h (by simp)
    · exact absurd h (by simp)

/-- C20 at the source of `#` followed by `"a"`: `Scan` returns one error, for the `#`, and
the `STRING`. -/
theorem Scan_never_unterminated_witness :
    Scan 5 (newScanner [35, 34, 97, 34]) = Exec.done
        ⟨[⟨TokenType.STRING, 1, 4, [97]⟩, eofToken], none,
          [⟨1, "Unexpected character #"⟩]⟩ ∧
      ∀ x ∈ [(⟨1, "Unexpected character #"⟩ : ParseError)],
        x.Cause ≠ "unterminated string literal." :=
  ⟨by decide, (Scan_never_unterminated 5 (newScanner [35, 34, 97, 34])).2.2
    ⟨[⟨TokenType.STRING, 1, 4, [97]⟩, eofToken], none, [⟨1, "Unexpected character #"⟩]⟩
    (by decide)⟩

end scanner
